import Mathlib

/-!
# s3report: a verification development

A shallow embedding of `bucket.go` (package `main` of `dj80hd/s3report`) and
theorems about it.  Every Go function of the file that the theorems speak
about is translated into a Lean function of the same name.

Conventions of the embedding.

* Go `int` and `int64` are mathematical integers reduced into the signed
  64-bit range by `wrap64` after every arithmetic operation (the program is
  modelled on a 64-bit platform, where `int` is 64 bits wide).
* A run-time panic (a slice bound out of range, a nil dereference) is the
  result `none`.
* A Go `string` is a Lean `String`; Go compares strings byte by byte over
  their UTF-8 encoding, which orders valid UTF-8 strings exactly as the
  comparison of their code point sequences used here.
* A slice is the list of its elements; its length is below `2 ^ 63`.
* Where releases of the Go standard library differ (`Time.MarshalJSON`, the
  string escapes of `encoding/json`) the embedding follows Go 1.22 and later.
  The wording of the errors of the library is not represented.
-/

namespace S3Report

/-! ## Machine integers -/

/-- Smallest value of Go `int` / `int64` on a 64-bit platform. -/
def minInt : Int := -(2 ^ 63)

/-- Largest value of Go `int` / `int64` on a 64-bit platform. -/
def maxInt : Int := 2 ^ 63 - 1

/-- Two-complement reduction of an integer into the signed 64-bit range:
the value a Go `int64` (or 64-bit `int`) holds after an operation whose
mathematical result is `x`. -/
def wrap64 (x : Int) : Int := (x + 2 ^ 63) % 2 ^ 64 - 2 ^ 63

/-! ## Slices -/

/-- Go slice expression `a[:high]`; it panics unless `0 ≤ high ≤ len(a)`
(the capacity of the slice is taken to be its length). -/
def sliceTo (a : List String) (high : Int) : Option (List String) :=
  if 0 ≤ high ∧ high ≤ (a.length : Int) then some (a.take high.toNat) else none

/-- Go slice expression `a[low:]`; it panics unless `0 ≤ low ≤ len(a)`. -/
def sliceFrom (a : List String) (low : Int) : Option (List String) :=
  if 0 ≤ low ∧ low ≤ (a.length : Int) then some (a.drop low.toNat) else none

/-! ## `onlyN` (bucket.go, lines 155-170) -/

/-- Go `onlyN`: "returns last n (n positive) or first (n negative) strings
from a slice of strings".  The negations and the sum are 64-bit operations. -/
def onlyN (a : List String) (n : Int) : Option (List String) :=
  let n := wrap64 (-n)
  if n > 0 then
    let n := if n > (a.length : Int) then (a.length : Int) else n
    sliceTo a n
  else
    let n := if wrap64 (-n) > (a.length : Int) then wrap64 (-(a.length : Int)) else n
    sliceFrom a (wrap64 ((a.length : Int) + n))

/-! ## Strings -/

/-- Go `<` on strings, on the character lists: lexicographic comparison. -/
def lessChars : List Char → List Char → Bool
  | [], [] => false
  | [], _ :: _ => true
  | _ :: _, [] => false
  | c :: s, d :: t =>
    if c.toNat < d.toNat then true
    else if d.toNat < c.toNat then false
    else lessChars s t

/-- Go `a < b` on strings. -/
def stringLess (a b : String) : Bool := lessChars a.toList b.toList

/-- Go `sort.Strings`: sorts in increasing order by `<`.  The order is total
and equal strings are indistinguishable, so the result is the one increasing
rearrangement of the input whatever the algorithm; it is computed here by
insertion. -/
def sortStrings (xs : List String) : List String :=
  xs.insertionSort (fun a b => stringLess b a = false)

/-- Go `strings.HasPrefix` on the character lists. -/
def startsWithChars : List Char → List Char → Bool
  | _, [] => true
  | [], _ :: _ => false
  | c :: s, d :: p => c == d && startsWithChars s p

/-- Go `strings.Contains` on the character lists: `sub` occurs in `s` as a
contiguous block. -/
def containsChars : List Char → List Char → Bool
  | [], sub => sub.isEmpty
  | c :: s, sub => startsWithChars (c :: s) sub || containsChars s sub

/-- Go `strings.Contains(s, substr)`. -/
def stringsContains (s substr : String) : Bool :=
  containsChars s.toList substr.toList

/-! ## Formatting verbs of package `fmt` -/

/-- Decimal numeral of a natural number. -/
def fmtNat (n : Nat) : String := String.mk (Nat.toDigits 10 n)

/-- Verb `%d` of `fmt` on an integer. -/
def fmtInt (x : Int) : String :=
  if x < 0 then "-" ++ fmtNat x.natAbs else fmtNat x.natAbs

/-- Quotient `n / d` rounded to the nearest integer, a tie going to the even
neighbour. -/
def roundHalfEven (n d : Nat) : Nat :=
  let q := n / d
  let r := n % d
  if 2 * r < d then q
  else if d < 2 * r then q + 1
  else if q % 2 = 0 then q else q + 1

/-- Worker of `log2`. -/
def log2Fuel : Nat → Nat → Nat
  | 0, _ => 0
  | fuel + 1, n => if n < 2 then 0 else log2Fuel fuel (n / 2) + 1

/-- Position of the leading binary digit of `n` (0 for `n ≤ 1`). -/
def log2 (n : Nat) : Nat := log2Fuel n n

/-- Conversion `float64(b)` of a non-negative integer: the nearest number with
a 53-bit significand, ties to even, returned as the integer it equals. -/
def toFloat64 (b : Nat) : Nat :=
  if b < 2 ^ 53 then b
  else
    let s := log2 b - 52
    roundHalfEven b (2 ^ s) * 2 ^ s

/-- Verb `%.1f` of `fmt` applied to `float64(b)/float64(div)`, for
`0 < div ≤ b` with quotient below `2 ^ 52`: the IEEE-754 quotient (rounded to
a 53-bit significand, ties to even) is converted to the nearest decimal with
one fractional digit (ties to even). -/
def fmtQuotient1 (b div : Nat) : String :=
  let fb := toFloat64 b
  let fd := toFloat64 div
  let e := log2 (fb / fd)
  let m := roundHalfEven (fb * 2 ^ (52 - e)) fd
  let tenths := roundHalfEven (m * 10) (2 ^ (52 - e))
  fmtNat (tenths / 10) ++ "." ++ fmtNat (tenths % 10)

/-! ## `byteCountToHuman` (bucket.go, lines 172-184) -/

/-- Loop `for n := b / unit; n >= unit; n /= unit` of `byteCountToHuman`,
carrying `(div, exp)`; `fuel` bounds the number of iterations. -/
def humanLoop : Nat → Int → Int → Int → Int × Int
  | 0, _, div, exp => (div, exp)
  | fuel + 1, n, div, exp =>
    if n ≥ 1000 then humanLoop fuel (n / 1000) (wrap64 (div * 1000)) (wrap64 (exp + 1))
    else (div, exp)

/-- Go index expression `"kMGTPE"[exp]`; it panics when `exp` is out of range. -/
def unitChar (exp : Int) : Option Char :=
  if 0 ≤ exp then "kMGTPE".toList.get? exp.toNat else none

/-- Go `byteCountToHuman`: "converts a byte count e.g 12345678 to a human
readable form e.g. 12.3MB".  Every iteration of the loop divides `n` by 1000,
so `b.toNat` iterations are always enough. -/
def byteCountToHuman (b : Int) : Option String :=
  if b < 1000 then some (fmtInt b ++ "B")
  else
    let r := humanLoop b.toNat (b / 1000) 1000 0
    match unitChar r.2 with
    | none => none
    | some c => some (fmtQuotient1 b.toNat r.1.toNat ++ c.toString ++ "B")

/-! ## `time.Time` -/

/-- Go `time.Time`: an instant with nanosecond resolution and the zone offset
it is displayed in. -/
structure Time where
  /-- Seconds since 0001-01-01T00:00:00Z, the zero `Time`. -/
  sec : Int
  /-- Nanoseconds within the second, below `10 ^ 9`. -/
  nsec : Nat
  /-- Zone offset in seconds east of UTC. -/
  offset : Int
deriving DecidableEq

/-- Zero value of `time.Time`: January 1, year 1, 00:00:00 UTC. -/
def Time.zero : Time := ⟨0, 0, 0⟩

/-- Go `t.Before(u)`: the instant `t` is before the instant `u`. -/
def Time.Before (t u : Time) : Bool :=
  decide (t.sec < u.sec) || (decide (t.sec = u.sec) && decide (t.nsec < u.nsec))

/-- Go `time.appendInt`: the decimal numeral of `x`, zero-padded to `width`
digits, after a minus sign when `x` is negative. -/
def appendInt (x : Int) (width : Nat) : String :=
  let digits := Nat.toDigits 10 x.natAbs
  let padded := String.mk (List.replicate (width - digits.length) '0' ++ digits)
  if x < 0 then "-" ++ padded else padded

/-- Year of the proleptic Gregorian calendar that holds day `days`, counted
from 0001-01-01, with the month and the day of the month. -/
def civilFromDays (days : Int) : Int × Int × Int :=
  let z := days + 306
  let era := z / 146097
  let doe := z % 146097
  let yoe := (doe - doe / 1460 + doe / 36524 - doe / 146096) / 365
  let doy := doe - (365 * yoe + yoe / 4 - yoe / 100)
  let mp := (5 * doy + 2) / 153
  let d := doy - (153 * mp + 2) / 5 + 1
  let m := if mp < 10 then mp + 3 else mp - 9
  let y := yoe + era * 400 + (if m ≤ 2 then 1 else 0)
  (y, m, d)

/-- Year shown for `t` in its zone. -/
def Time.Year (t : Time) : Int := (civilFromDays ((t.sec + t.offset) / 86400)).1

/-- Date and clock part `2006-01-02T15:04:05` of the RFC 3339 layouts. -/
def Time.formatDateTime (t : Time) : String :=
  let loc := t.sec + t.offset
  let ymd := civilFromDays (loc / 86400)
  let s := loc % 86400
  appendInt ymd.1 4 ++ "-" ++ appendInt ymd.2.1 2 ++ "-" ++ appendInt ymd.2.2 2 ++ "T"
    ++ appendInt (s / 3600) 2 ++ ":" ++ appendInt (s % 3600 / 60) 2 ++ ":"
    ++ appendInt (s % 60) 2

/-- Zone part `Z07:00` of the RFC 3339 layouts: `Z` for offset zero, else the
signed offset in hours and minutes. -/
def Time.formatZone (t : Time) : String :=
  if t.offset = 0 then "Z"
  else
    let zone := Int.tdiv t.offset 60
    let az := zone.natAbs
    (if zone < 0 then "-" else "+") ++ appendInt (az / 60 : Nat) 2 ++ ":"
      ++ appendInt (az % 60 : Nat) 2

/-- Go `t.Format(time.RFC3339)`, layout `2006-01-02T15:04:05Z07:00`. -/
def Time.FormatRFC3339 (t : Time) : String :=
  t.formatDateTime ++ t.formatZone

/-- Fractional second `.999999999` of layout RFC3339Nano: nine digits with the
trailing zeros removed, nothing at all for a whole second. -/
def Time.formatFraction (t : Time) : String :=
  if t.nsec = 0 then ""
  else
    let digits := Nat.toDigits 10 t.nsec
    let nine := List.replicate (9 - digits.length) '0' ++ digits
    "." ++ String.mk (nine.reverse.dropWhile (fun c => c == '0')).reverse

/-- Go `t.Format(time.RFC3339Nano)`. -/
def Time.FormatRFC3339Nano (t : Time) : String :=
  t.formatDateTime ++ t.formatFraction ++ t.formatZone

/-! ## Data of the program -/

deriving instance DecidableEq for Except

/-- A Go `error` value as the program uses it: the text of `Error()` and what
`encoding/json` makes of its dynamic value (the encoded text, or the message
of the encoding failure).  The errors of the AWS SDK are pointers to structs
without exported fields and without a marshaller; they encode as `{}`. -/
structure GoError where
  msg : String
  json : Except String String
deriving DecidableEq

/-- Listing entry `s3.Object`, restricted to the fields the program reads:
`Key`, `LastModified`, `Size` and `Owner.ID`.  The pointers are taken to be
non-nil, as S3 fills them in every entry of a listing. -/
structure Object where
  Key : String
  LastModified : Time
  Size : Int
  OwnerID : String
deriving DecidableEq

/-- Go `map[string]int64` as the list of its entries, one per key, in the
order the keys were first assigned. -/
abbrev OwnerMap := List (String × Int)

/-- Go `m[k] += v` on a `map[string]int64`: an absent key reads as 0. -/
def mapAddTo : OwnerMap → String → Int → OwnerMap
  | [], k, v => [(k, wrap64 (0 + v))]
  | (k', x) :: rest, k, v =>
    if k' = k then (k', wrap64 (x + v)) :: rest else (k', x) :: mapAddTo rest k v

/-- Go struct `Analysis` (bucket.go, lines 15-26): "summary data about the
objects in the bucket". -/
structure Analysis where
  Name : String
  CreationDate : Time
  LastModified : Time
  TotalSize : Int
  DisplayObjectCount : Int
  TotalCount : Int
  SizePerOwnerID : OwnerMap
  Objects : List String
  Error : Option GoError
deriving DecidableEq

/-- Go struct `Bucket` (bucket.go, lines 89-95).  `Analysis` is a pointer and
may be nil.  `AnalysisChannel` is represented by the messages sent on it so
far, oldest first, each as the `Analysis` stood when it was sent; blocking of
a send on a full channel is not represented. -/
structure Bucket where
  Name : String
  CreationDate : Time
  Analysis : Option Analysis
  AnalysisChannel : List S3Report.Analysis
deriving DecidableEq

/-- Go `newAnalysis` (bucket.go, lines 28-38): the `Analysis` constructor.
Fields the composite literal leaves out hold their zero values. -/
def newAnalysis (b : Bucket) (displayObjectCount : Int) : Analysis where
  Name := b.Name
  DisplayObjectCount := displayObjectCount
  CreationDate := b.CreationDate
  SizePerOwnerID := []
  Objects := []
  LastModified := Time.zero
  TotalSize := 0
  TotalCount := 0
  Error := none

/-! ## Rendering (bucket.go, lines 40-67) -/

/-- Double quote character. -/
def quoteChar : Char := Char.ofNat 34

/-- Backslash character. -/
def backslashChar : Char := Char.ofNat 92

/-- Four lower-case hexadecimal digits of `n`. -/
def hex4 (n : Nat) : List Char :=
  [Nat.digitChar (n / 4096 % 16), Nat.digitChar (n / 256 % 16),
    Nat.digitChar (n / 16 % 16), Nat.digitChar (n % 16)]

/-- Escape sequence `encoding/json` writes for one character of a string
(HTML escaping on, as `json.Marshal` has it; backspace and form feed in their
short forms, as Go 1.22 and later write them). -/
def jsonEscapeChar (c : Char) : List Char :=
  if c = quoteChar then [backslashChar, quoteChar]
  else if c = backslashChar then [backslashChar, backslashChar]
  else if c = Char.ofNat 8 then [backslashChar, 'b']
  else if c = Char.ofNat 12 then [backslashChar, 'f']
  else if c = '\n' then [backslashChar, 'n']
  else if c = '\r' then [backslashChar, 'r']
  else if c = '\t' then [backslashChar, 't']
  else if c.toNat < 32 ∨ c = '<' ∨ c = '>' ∨ c = '&' ∨ c.toNat = 8232 ∨ c.toNat = 8233 then
    backslashChar :: 'u' :: hex4 c.toNat
  else [c]

/-- Encoding of a Go string by `encoding/json`. -/
def jsonString (s : String) : String :=
  String.mk (quoteChar :: (s.toList.flatMap jsonEscapeChar) ++ [quoteChar])

/-- Go `Time.MarshalJSON`, as Go 1.20 and later have it: the quoted
RFC3339Nano form, or an error, here `none`, for a year outside 0..9999 and for
a zone offset whose hour field is outside 0..23 (the releases before 1.20
refuse the year only).  The text of the error is not represented. -/
def Time.MarshalJSON (t : Time) : Option String :=
  if t.Year < 0 ∨ 10000 ≤ t.Year then none
  else if t.offset ≠ 0 ∧ 24 ≤ (Int.tdiv t.offset 60).natAbs / 60 then none
  else some (String.mk [quoteChar] ++ t.FormatRFC3339Nano ++ String.mk [quoteChar])

/-- Encoding of a non-nil `map[string]int64` by `encoding/json`: an object
whose keys come in increasing order. -/
def jsonOwnerMap (m : OwnerMap) : String :=
  "\x7b" ++ ",".intercalate
    ((m.insertionSort (fun p q => stringLess q.1 p.1 = false)).map
      (fun p => jsonString p.1 ++ ":" ++ fmtInt p.2)) ++ "\x7d"

/-- Encoding of a non-nil `[]string` by `encoding/json`. -/
def jsonStrings (xs : List String) : String :=
  "[" ++ ",".intercalate (xs.map jsonString) ++ "]"

/-- Encoding of an `error` field by `encoding/json`: `null` for nil, else the
encoding of the dynamic value. -/
def jsonError : Option GoError → Except String String
  | none => .ok "null"
  | some e => e.json

/-- The encoded object up to the value of `Error`: the fields in declaration
order, the two timestamps given by their encodings. -/
def Analysis.jsonFields (a : Analysis) (created modified : String) : String :=
  "\x7b\"Name\":" ++ jsonString a.Name
    ++ ",\"CreationDate\":" ++ created
    ++ ",\"LastModified\":" ++ modified
    ++ ",\"TotalSize\":" ++ fmtInt a.TotalSize
    ++ ",\"DisplayObjectCount\":" ++ fmtInt a.DisplayObjectCount
    ++ ",\"TotalCount\":" ++ fmtInt a.TotalCount
    ++ ",\"SizePerOwnerID\":" ++ jsonOwnerMap a.SizePerOwnerID
    ++ ",\"Objects\":" ++ jsonStrings a.Objects
    ++ ",\"Error\":"

/-- Go `json.Marshal(*a)`: the fields in declaration order; a field that
fails to encode aborts the encoding with an error, here `none`. -/
def Analysis.marshal (a : Analysis) : Option String :=
  match a.CreationDate.MarshalJSON with
  | none => none
  | some created =>
    match a.LastModified.MarshalJSON with
    | none => none
    | some modified =>
      match jsonError a.Error with
      | .error _ => none
      | .ok err => some (a.jsonFields created modified ++ err ++ "\x7d")

/-- What `(*Analysis).JSON` returns: the encoded object, or the text
`err.Error()` of the failure of `json.Marshal`.  The wording of that text
belongs to the library and changes between its releases; only the fact that
the encoding failed is represented. -/
inductive JSONText where
  | encoded (text : String)
  | encodingError
deriving DecidableEq

/-- Go `(*Analysis).JSON` (bucket.go, lines 40-47): "JSON format of
Analysis"; the text of the error when the encoding fails. -/
def Analysis.JSON (a : Analysis) : JSONText :=
  match a.marshal with
  | none => .encodingError
  | some j => .encoded j

/-- Lines of the loop `for owner, size := range a.SizePerOwnerID` of
`String`, for the entries in the order in which the loop visits them. -/
def ownerLines (total : Int) : OwnerMap → Option String
  | [] => some ""
  | (owner, size) :: rest =>
    match byteCountToHuman size, byteCountToHuman total, ownerLines total rest with
    | some s, some t, some more => some (" * " ++ s ++ "/" ++ t ++ " " ++ owner ++ "\n" ++ more)
    | _, _, _ => none

/-- Lines of the loop `for _, o := range a.Objects` of `String`. -/
def objectLines : List String → String
  | [] => ""
  | o :: rest => " * " ++ o ++ "\n" ++ objectLines rest

/-- Go `(*Analysis).String` (bucket.go, lines 49-67): "String format of
Analysis", in a run whose loop over `a.SizePerOwnerID` visits the entries in
the order `visit`.  Go leaves the order of the iteration over a map
unspecified and varies it from one run to the next, so the text is a function
of the `Analysis` and of that order; `visit` is a rearrangement of the entries
of the map. -/
def Analysis.StringVisiting (a : Analysis) (visit : OwnerMap) : Option String :=
  match byteCountToHuman a.TotalSize, ownerLines a.TotalSize visit with
  | some total, some owners =>
    some ("Name: " ++ a.Name ++ "\nObjectCount: " ++ fmtInt a.TotalCount
      ++ "\nTotalSize: " ++ total
      ++ "\nCreationDate: " ++ a.CreationDate.FormatRFC3339
      ++ "\nLastModified: " ++ a.LastModified.FormatRFC3339 ++ "\n"
      ++ "Objects:\n" ++ objectLines a.Objects
      ++ "TotalSizePerAccount:\n" ++ owners)
  | _, _ => none

/-- Go `(*Analysis).String` in the run that visits the owners in the order of
the entry list.  For a map of at most one owner there is no other order, and
this is the text of every run. -/
def Analysis.String (a : Analysis) : Option String :=
  a.StringVisiting a.SizePerOwnerID

/-! ## Accumulation and finalisation (bucket.go, lines 69-143) -/

/-- Go `(*Analysis).processObject` (bucket.go, lines 69-87): "called for
every object in the bucket".  The result is the `Analysis` after the call;
`none` when `byteCountToHuman` panics. -/
def processObject (a : Analysis) (object : Object) : Option Analysis :=
  let a := { a with TotalCount := wrap64 (a.TotalCount + 1) }
  let a := { a with TotalSize := wrap64 (a.TotalSize + object.Size) }
  let a := { a with SizePerOwnerID := mapAddTo a.SizePerOwnerID object.OwnerID object.Size }
  let a := if a.LastModified.Before object.LastModified then
    { a with LastModified := object.LastModified } else a
  match byteCountToHuman object.Size with
  | none => none
  | some human =>
    let objectString := object.LastModified.FormatRFC3339 ++ " " ++ human ++ " " ++ object.Key
    some { a with Objects := a.Objects ++ [objectString] }

/-- Go `(*Bucket).completeAnalysis` (bucket.go, lines 133-143): "finalizes
the Analysis object and sends it on the AnalysisChannel". -/
def completeAnalysis (b : Bucket) : Option Bucket :=
  match b.Analysis with
  | none => none
  | some a =>
    let a := { a with Objects := sortStrings a.Objects }
    match onlyN a.Objects a.DisplayObjectCount with
    | none => none
    | some objects =>
      let a := { a with Objects := objects }
      some { b with Analysis := some a, AnalysisChannel := b.AnalysisChannel ++ [a] }

/-- Loop `for _, object := range page.Contents` of `handleListObjectOutput`. -/
def processContents (b : Bucket) : List Object → Option Bucket
  | [] => some b
  | object :: rest =>
    match b.Analysis with
    | none => none
    | some a =>
      match processObject a object with
      | none => none
      | some a' => processContents { b with Analysis := some a' } rest

/-- Go `(*Bucket).handleListObjectOutput` (bucket.go, lines 122-131): "the
callback for a list objects operation".  A page is the list `page.Contents`.
The result is the bucket after the call and the returned boolean. -/
def handleListObjectOutput (b : Bucket) (page : List Object) (lastPage : Bool) :
    Option (Bucket × Bool) :=
  match processContents b page with
  | none => none
  | some b1 =>
    if lastPage then
      match completeAnalysis b1 with
      | none => none
      | some b2 => some (b2, !lastPage)
    else some (b1, !lastPage)

/-- Go `(*Bucket).analysisError` (bucket.go, lines 116-120): "marks the
analysis as error and sends it to the AnalysisChannel". -/
def analysisError (b : Bucket) (err : GoError) : Option Bucket :=
  match b.Analysis with
  | none => none
  | some a =>
    let a := { a with Error := some err }
    some { b with Analysis := some a, AnalysisChannel := b.AnalysisChannel ++ [a] }

/-- What the storage service does during one run of `Analyze`: the error of
`s3Service(b.Name)` if it fails, the pages the listing fetches, oldest first,
and the error that ends the listing if it fails after them.  A listing whose
first request succeeds fetches at least one page: an empty bucket is one page
without objects. -/
structure Backend where
  serviceErr : Option GoError
  pages : List (List Object)
  listErr : Option GoError

/-- The calls the pagination driver makes for the pages it fetched: it calls
`fn(page, lastPage)` on every page in order, `lastPage` being true for a page
with no successor, stops as soon as `fn` returns false, and returns the error
of the request that failed, if any.  A page followed by a failed request was
announced as having a successor. -/
def deliverPages (fn : Bucket → List Object → Bool → Option (Bucket × Bool)) :
    Bucket → List (List Object) → Option GoError → Option (Bucket × Option GoError)
  | b, [], err => some (b, err)
  | b, page :: rest, err =>
    match fn b page (rest.isEmpty && err.isNone) with
    | none => none
    | some (b', true) => deliverPages fn b' rest err
    | some (b', false) => some (b', none)

/-- The pagination driver `ListObjectsPages` of the AWS SDK (not part of this
repository), after its documented contract: see `deliverPages`.  The first
request either fails or delivers a page, so a listing without error always
calls `fn` at least once; a listing described by no page and no error is the
listing of an empty bucket, one page without objects that is the last. -/
def ListObjectsPages (fn : Bucket → List Object → Bool → Option (Bucket × Bool))
    (b : Bucket) (pages : List (List Object)) (err : Option GoError) :
    Option (Bucket × Option GoError) :=
  match pages, err with
  | [], none => deliverPages fn b [[]] none
  | _, _ => deliverPages fn b pages err

/-- Go `(*Bucket).Analyze` (bucket.go, lines 97-114): "uses the
handleListObjectsOutput callback to start collecting data".  The result is the
bucket, with its channel, when the call returns. -/
def Analyze (b : Bucket) (ch : List Analysis) (displayObjectCount : Int) (s3 : Backend) :
    Option Bucket :=
  let b := { b with Analysis := some (newAnalysis b displayObjectCount), AnalysisChannel := ch }
  match s3.serviceErr with
  | some err => analysisError b err
  | none =>
    match ListObjectsPages handleListObjectOutput b s3.pages s3.listErr with
    | none => none
    | some (b', some err) => analysisError b' err
    | some (b', none) => some b'

/-! ## `filterBuckets` (bucket.go, lines 213-222) -/

/-- Go `filterBuckets`: "filters a list of buckets using the include and
exclude substrings".  The parameters `include` and `exclude` of the source
are `incl` and `excl` here, `include` being a reserved word. -/
def filterBuckets (buckets : List Bucket) (incl excl : String) : List Bucket :=
  buckets.foldl
    (fun filtered b =>
      if stringsContains b.Name incl && (excl.length == 0 || !stringsContains b.Name excl)
      then filtered ++ [b] else filtered)
    []

/-! ## Sequences of calls and the quantities the claims compare with -/

/-- Successive calls `a.processObject(o)` for the objects of a list, in order. -/
def processObjects (a : Analysis) : List Object → Option Analysis
  | [] => some a
  | object :: rest =>
    match processObject a object with
    | none => none
    | some a' => processObjects a' rest

/-- Successive calls `b.handleListObjectOutput(page, lastPage)`, one per entry
of the list, as the test `TestAnalysisCallback` makes them. -/
def handlePages (b : Bucket) : List (List Object × Bool) → Option Bucket
  | [] => some b
  | (page, lastPage) :: rest =>
    match handleListObjectOutput b page lastPage with
    | none => none
    | some (b', _) => handlePages b' rest

/-- Sum of the sizes of a list of objects, as an integer. -/
def sumSizes (objs : List Object) : Int := (objs.map Object.Size).sum

/-- Sum of the values of a `map[string]int64`, as an integer. -/
def sumValues (m : OwnerMap) : Int := (m.map Prod.snd).sum

/-- Go `t.Equal(u)`: the same instant, whatever the zones. -/
def Time.Equal (t u : Time) : Bool := decide (t.sec = u.sec) && decide (t.nsec = u.nsec)

/-- The number of tenths `fmtQuotient1` prints: `float64(b)/float64(div)`
rounded to one decimal place, times ten. -/
def quotientTenths (b div : Nat) : Nat :=
  let fb := toFloat64 b
  let fd := toFloat64 div
  let e := log2 (fb / fd)
  let m := roundHalfEven (fb * 2 ^ (52 - e)) fd
  roundHalfEven (m * 10) (2 ^ (52 - e))

/-! ## `main` (main.go, lines 43-62) -/

/-- Capacity of the result channel `main` creates before it starts the scans:
`ch := make(chan *Analysis, 10)` (main.go, line 44), whatever the buckets. -/
def resultChannelCapacity (_buckets : List Bucket) : Nat := 10

/-- A send on a buffered channel of the given capacity that holds `pending`
messages not yet received: it completes at once when a slot is free and
blocks otherwise. -/
def sendCompletes (capacity pending : Nat) : Bool := decide (pending < capacity)

/-- The collection loop of `main` (main.go, lines 50-62), on a clock that
counts seconds.  `arrivals` gives, for each iteration, the instant at which
the message it would receive becomes available on the channel; `now` is the
instant at which the iteration enters its `select`.  The `select` creates its
timer there, `time.After(timeout seconds)`, so the timer fires at
`now + timeout`; the receive wins when the message is available before that
(a message already waiting is received at once), else `timeout` is printed
and the process exits.  The result is `.ok t` when every message has been
read, the last at `t`, and `.error t` when the timeout is reported at `t`. -/
def collect (timeout : Int) : Int → List Int → Except Int Int
  | now, [] => .ok now
  | now, t :: rest =>
    if t < now + timeout then collect timeout (max now t) rest
    else .error (now + timeout)

/-! ## Reading the owner map -/

/-- Go `v, ok := m[k]` on a `map[string]int64`: the value stored for `k`, if
there is an entry. -/
def mapGet : OwnerMap → String → Option Int
  | [], _ => none
  | (k', x) :: rest, k => if k' = k then some x else mapGet rest k

/-- Sum of the sizes of the objects of a list that `owner` owns, as an integer. -/
def ownedSizes (owner : String) (objs : List Object) : Int :=
  ((objs.filter (fun x => x.OwnerID = owner)).map Object.Size).sum

/-! ## Lemmas on machine integers and `onlyN` -/

theorem wrap64_of_range {x : Int} (hlo : -(2 ^ 63) ≤ x) (hhi : x < 2 ^ 63) :
    wrap64 x = x := by
  unfold wrap64
  rw [Int.emod_eq_of_lt (by omega) (by omega)]
  omega

theorem wrap64_lower (x : Int) : -(2 ^ 63) ≤ wrap64 x := by
  unfold wrap64
  have := Int.emod_nonneg (x + 2 ^ 63) (show (2 ^ 64 : Int) ≠ 0 by norm_num)
  omega

theorem wrap64_upper (x : Int) : wrap64 x < 2 ^ 63 := by
  unfold wrap64
  have := Int.emod_lt_of_pos (x + 2 ^ 63) (show (0 : Int) < 2 ^ 64 by norm_num)
  omega

/-- For a non-negative count `onlyN` keeps the last `min n (len a)` entries. -/
theorem onlyN_of_nonneg (a : List String) (n : Int) (hlen : (a.length : Int) < 2 ^ 63)
    (h0 : 0 ≤ n) (hn : n < 2 ^ 63) :
    onlyN a n = some (a.drop (a.length - min n.toNat a.length)) := by
  have hw : wrap64 (-n) = -n := wrap64_of_range (by omega) (by omega)
  have hw2 : wrap64 (- -n) = n := by
    rw [neg_neg]; exact wrap64_of_range (by omega) (by omega)
  have hw3 : wrap64 (-(a.length : Int)) = -(a.length : Int) :=
    wrap64_of_range (by omega) (by omega)
  unfold onlyN
  simp only [hw, hw2, hw3]
  rw [if_neg (by omega)]
  by_cases hgt : n > (a.length : Int)
  · rw [if_pos hgt]
    have hz : wrap64 ((a.length : Int) + -(a.length : Int)) = 0 := by
      rw [add_neg_cancel]; exact wrap64_of_range (by norm_num) (by norm_num)
    rw [hz]
    have hmin : min n.toNat a.length = a.length := by omega
    simp [sliceFrom, hmin]
  · rw [if_neg hgt]
    have hz : wrap64 ((a.length : Int) + -n) = (a.length : Int) - n := by
      rw [← sub_eq_add_neg]; exact wrap64_of_range (by omega) (by omega)
    rw [hz]
    have hmin : min n.toNat a.length = n.toNat := by omega
    have hto : ((a.length : Int) - n).toNat = a.length - n.toNat := by omega
    unfold sliceFrom
    rw [if_pos (by omega), hmin, hto]

/-- For a negative count other than the smallest integer `onlyN` keeps the
first `min (-n) (len a)` entries. -/
theorem onlyN_of_neg (a : List String) (n : Int)
    (hlo : -(2 ^ 63) < n) (hn : n < 0) :
    onlyN a n = some (a.take (min (-n).toNat a.length)) := by
  have hw : wrap64 (-n) = -n := wrap64_of_range (by omega) (by omega)
  unfold onlyN
  simp only [hw]
  rw [if_pos (by omega)]
  by_cases hgt : -n > (a.length : Int)
  · rw [if_pos hgt]
    have hmin : min (-n).toNat a.length = a.length := by omega
    simp [sliceTo, hmin]
  · rw [if_neg hgt]
    have hmin : min (-n).toNat a.length = (-n).toNat := by omega
    unfold sliceTo
    rw [if_pos (by omega), hmin]

/-- At the smallest integer the negation wraps to itself and the slice
expression `a[len(a)+n:]` has a negative bound. -/
theorem onlyN_minInt (a : List String) (hlen : (a.length : Int) < 2 ^ 63) :
    onlyN a minInt = none := by
  have hw : wrap64 (-minInt) = -(2 ^ 63) := by unfold wrap64 minInt; norm_num
  have hw2 : wrap64 (-(-(2 ^ 63) : Int)) = -(2 ^ 63) := by unfold wrap64; norm_num
  unfold onlyN
  simp only [hw, hw2]
  rw [if_neg (by norm_num), if_neg (by omega)]
  have hz : wrap64 ((a.length : Int) + -(2 ^ 63)) = (a.length : Int) - 2 ^ 63 := by
    rw [← sub_eq_add_neg]; exact wrap64_of_range (by omega) (by omega)
  rw [hz]
  unfold sliceFrom
  rw [if_neg (by omega)]

/-! ## Order of strings and `sortStrings` -/

theorem lex_cons_inv {r : Nat → Nat → Prop} {a b : Nat} {l l' : List Nat}
    (h : List.Lex r (a :: l) (b :: l')) : r a b ∨ (a = b ∧ List.Lex r l l') := by
  cases h with
  | cons h => exact Or.inr ⟨rfl, h⟩
  | rel h => exact Or.inl h

theorem lessChars_iff_lex (s t : List Char) :
    lessChars s t = true ↔ List.Lex (· < ·) (s.map Char.toNat) (t.map Char.toNat) := by
  induction s generalizing t with
  | nil =>
    cases t with
    | nil => simp [lessChars]
    | cons d t => simp [lessChars, List.Lex.nil]
  | cons c s ih =>
    cases t with
    | nil => simp [lessChars]
    | cons d t =>
      simp only [lessChars, List.map_cons]
      by_cases h1 : c.toNat < d.toNat
      · simp only [h1, if_true, true_iff]
        exact List.Lex.rel h1
      · by_cases h2 : d.toNat < c.toNat
        · simp only [h1, h2, if_false, if_true]
          constructor
          · intro h; cases h
          · intro h
            rcases lex_cons_inv h with h | ⟨h, _⟩
            · exact absurd h h1
            · omega
        · have heq : c.toNat = d.toNat := by omega
          rw [if_neg h1, if_neg h2, heq, List.Lex.cons_iff]
          exact ih t

theorem charList_eq_of_map_toNat {s t : List Char}
    (h : s.map Char.toNat = t.map Char.toNat) : s = t := by
  induction s generalizing t with
  | nil => cases t with
    | nil => rfl
    | cons d t => simp at h
  | cons c s ih =>
    cases t with
    | nil => simp at h
    | cons d t =>
      simp only [List.map_cons, List.cons.injEq] at h
      have hc : c = d := Char.ext (UInt32.ext (by simpa [Char.toNat] using h.1))
      rw [hc, ih h.2]

/-- The order `a ≤ b` of Go strings: `b < a` does not hold. -/
theorem stringLE_total (a b : String) : stringLess b a = false ∨ stringLess a b = false := by
  by_contra hcon
  push_neg at hcon
  have h1 : stringLess b a = true := by simpa using hcon.1
  have h2 : stringLess a b = true := by simpa using hcon.2
  unfold stringLess at h1 h2
  rw [lessChars_iff_lex] at h1 h2
  exact asymm_of (List.Lex (· < ·)) h1 h2

theorem stringLE_trans (a b c : String) (hab : stringLess b a = false)
    (hbc : stringLess c b = false) : stringLess c a = false := by
  by_contra hcon
  have hca : stringLess c a = true := by simpa using hcon
  have nab : ¬ stringLess b a = true := by simp [hab]
  have nbc : ¬ stringLess c b = true := by simp [hbc]
  unfold stringLess at hca nab nbc
  rw [lessChars_iff_lex] at hca nab nbc
  rcases IsOrderConnected.conn _ (b.toList.map Char.toNat) _ hca with h | h
  · exact nbc h
  · exact nab h

theorem stringLE_antisymm (a b : String) (hab : stringLess b a = false)
    (hba : stringLess a b = false) : a = b := by
  have nab : ¬ stringLess b a = true := by simp [hab]
  have nba : ¬ stringLess a b = true := by simp [hba]
  unfold stringLess at nab nba
  rw [lessChars_iff_lex] at nab nba
  rcases trichotomous_of (List.Lex (fun (x y : Nat) => x < y)) (a.toList.map Char.toNat)
      (b.toList.map Char.toNat) with h | h | h
  · exact absurd h nba
  · exact String.ext (charList_eq_of_map_toNat h)
  · exact absurd h nab

theorem sortStrings_sorted (xs : List String) :
    List.Sorted (fun a b => stringLess b a = false) (sortStrings xs) := by
  haveI : IsTotal String (fun a b => stringLess b a = false) := ⟨stringLE_total⟩
  haveI : IsTrans String (fun a b => stringLess b a = false) := ⟨stringLE_trans⟩
  exact List.sorted_insertionSort _ xs

theorem sortStrings_perm (xs : List String) : (sortStrings xs).Perm xs :=
  List.perm_insertionSort _ xs

theorem sortStrings_length (xs : List String) : (sortStrings xs).length = xs.length :=
  (sortStrings_perm xs).length_eq

/-! ## The selection rule `onlyN` -/

theorem onlyN_sublist_length (a : List String) (n : Int) (hlen : (a.length : Int) ≤ maxInt)
    (hlo : minInt ≤ n) (hhi : n ≤ maxInt) (s : List String) (h : onlyN a n = some s) :
    s.Sublist a ∧ s.length ≤ n.natAbs := by
  unfold maxInt at hlen hhi
  unfold minInt at hlo
  by_cases h0 : 0 ≤ n
  · rw [onlyN_of_nonneg a n (by omega) h0 (by omega)] at h
    cases h
    refine ⟨List.drop_sublist _ _, ?_⟩
    rw [List.length_drop]
    omega
  · by_cases hmin : n = minInt
    · rw [hmin, onlyN_minInt a (by omega)] at h
      cases h
    · unfold minInt at hmin
      rw [onlyN_of_neg a n (by omega) (by omega)] at h
      cases h
      refine ⟨List.take_sublist _ _, ?_⟩
      rw [List.length_take]
      omega

theorem onlyN_isSome (a : List String) (n : Int) (hlen : (a.length : Int) ≤ maxInt)
    (hlo : minInt < n) (hhi : n ≤ maxInt) : ∃ s, onlyN a n = some s := by
  unfold maxInt at hlen hhi
  unfold minInt at hlo
  by_cases h0 : 0 ≤ n
  · exact ⟨_, onlyN_of_nonneg a n (by omega) h0 (by omega)⟩
  · exact ⟨_, onlyN_of_neg a n (by omega) (by omega)⟩

/-! ## Accumulation: `processObject` -/

theorem wrap64_wrap64_add (x y : Int) : wrap64 (wrap64 x + y) = wrap64 (x + y) := by
  unfold wrap64
  omega

theorem wrap64_idem (x : Int) : wrap64 (wrap64 x) = wrap64 x := by
  unfold wrap64
  omega

theorem humanLoop_exp_range (b : Int) (hlo : 1000 ≤ b) (hhi : b ≤ maxInt) :
    0 ≤ (humanLoop b.toNat (b / 1000) 1000 0).2
      ∧ (humanLoop b.toNat (b / 1000) 1000 0).2 ≤ 5 := by
  unfold maxInt at hhi
  obtain ⟨k, hk⟩ : ∃ k, b.toNat = k + 6 := ⟨b.toNat - 6, by omega⟩
  rw [hk]
  have w1 : wrap64 (0 + 1) = 1 := by decide
  have w2 : wrap64 (1 + 1) = 2 := by decide
  have w3 : wrap64 (2 + 1) = 3 := by decide
  have w4 : wrap64 (3 + 1) = 4 := by decide
  have w5 : wrap64 (4 + 1) = 5 := by decide
  simp only [humanLoop, w1, w2, w3, w4, w5]
  split_ifs <;> omega

theorem unitChar_isSome (e : Int) (h0 : 0 ≤ e) (h5 : e ≤ 5) :
    (unitChar e).isSome = true := by
  have he : e = 0 ∨ e = 1 ∨ e = 2 ∨ e = 3 ∨ e = 4 ∨ e = 5 := by omega
  rcases he with h | h | h | h | h | h <;> subst h <;> decide

/-- On every 64-bit byte count `byteCountToHuman` returns: the index into
`"kMGTPE"` stays in range. -/
theorem byteCountToHuman_isSome (b : Int) (hhi : b ≤ maxInt) :
    ∃ s, byteCountToHuman b = some s := by
  unfold byteCountToHuman
  by_cases h : b < 1000
  · rw [if_pos h]; exact ⟨_, rfl⟩
  · rw [if_neg h]
    have hr := humanLoop_exp_range b (by omega) hhi
    obtain ⟨c, hc⟩ := Option.isSome_iff_exists.mp (unitChar_isSome _ hr.1 hr.2)
    simp only [hc]
    exact ⟨_, rfl⟩

/-- What one call of `processObject` does to each field. -/
theorem processObject_fields (a a' : Analysis) (o : Object) (h : processObject a o = some a') :
    a'.TotalCount = wrap64 (a.TotalCount + 1)
    ∧ a'.TotalSize = wrap64 (a.TotalSize + o.Size)
    ∧ a'.SizePerOwnerID = mapAddTo a.SizePerOwnerID o.OwnerID o.Size
    ∧ a'.LastModified
        = (if a.LastModified.Before o.LastModified then o.LastModified else a.LastModified)
    ∧ (∃ human, byteCountToHuman o.Size = some human
        ∧ a'.Objects = a.Objects ++ [o.LastModified.FormatRFC3339 ++ " " ++ human ++ " " ++ o.Key])
    ∧ a'.Name = a.Name ∧ a'.CreationDate = a.CreationDate
    ∧ a'.DisplayObjectCount = a.DisplayObjectCount ∧ a'.Error = a.Error := by
  unfold processObject at h
  cases hb : byteCountToHuman o.Size with
  | none => simp [hb] at h
  | some human =>
    simp only [hb, Option.some.injEq] at h
    subst h
    by_cases hbefore : a.LastModified.Before o.LastModified = true
    · simp [hbefore]
    · simp [hbefore]

theorem processObject_isSome (a : Analysis) (o : Object) (hhi : o.Size ≤ maxInt) :
    ∃ a', processObject a o = some a' := by
  obtain ⟨s, hs⟩ := byteCountToHuman_isSome o.Size hhi
  unfold processObject
  simp only [hs]
  exact ⟨_, rfl⟩

theorem processObjects_isSome (a : Analysis) (objs : List Object)
    (hsz : ∀ o ∈ objs, o.Size ≤ maxInt) : ∃ a', processObjects a objs = some a' := by
  induction objs generalizing a with
  | nil => exact ⟨a, rfl⟩
  | cons o rest ih =>
    obtain ⟨a1, h1⟩ := processObject_isSome a o (hsz o (List.mem_cons_self _ _))
    obtain ⟨a2, h2⟩ := ih a1 (fun x hx => hsz x (List.mem_cons_of_mem _ hx))
    exact ⟨a2, by simp only [processObjects, h1, h2]⟩

/-- Counters after a sequence of calls, from any `Analysis` whose counters are
64-bit values. -/
theorem processObjects_counters (a a' : Analysis) (objs : List Object)
    (hT : wrap64 a.TotalSize = a.TotalSize) (hC : wrap64 a.TotalCount = a.TotalCount)
    (h : processObjects a objs = some a') :
    a'.TotalSize = wrap64 (a.TotalSize + sumSizes objs)
    ∧ a'.TotalCount = wrap64 (a.TotalCount + objs.length)
    ∧ a'.DisplayObjectCount = a.DisplayObjectCount
    ∧ a'.Objects.length = a.Objects.length + objs.length := by
  induction objs generalizing a with
  | nil =>
    simp only [processObjects, Option.some.injEq] at h
    subst h
    simp [sumSizes, hT, hC]
  | cons o rest ih =>
    simp only [processObjects] at h
    cases h1 : processObject a o with
    | none => simp [h1] at h
    | some a1 =>
      rw [h1] at h
      simp only at h
      obtain ⟨fC, fT, -, -, ⟨human, -, fO⟩, -, -, fD, -⟩ := processObject_fields a a1 o h1
      have ih' := ih a1 (by rw [fT, wrap64_idem]) (by rw [fC, wrap64_idem]) h
      obtain ⟨iT, iC, iD, iO⟩ := ih'
      refine ⟨?_, ?_, ?_, ?_⟩
      · rw [iT, fT, wrap64_wrap64_add]
        simp only [sumSizes, List.map_cons, List.sum_cons]
        congr 1
        ring
      · rw [iC, fC, wrap64_wrap64_add]
        simp only [List.length_cons, Nat.cast_add, Nat.cast_one]
        congr 1
        ring
      · rw [iD, fD]
      · rw [iO, fO]
        simp only [List.length_append, List.length_cons, List.length_nil]
        omega

/-! ## The owner map -/

theorem mapAddTo_sum_wrap (m : OwnerMap) (k : String) (v : Int) :
    wrap64 (sumValues (mapAddTo m k v)) = wrap64 (sumValues m + v) := by
  induction m with
  | nil =>
    simp only [mapAddTo, sumValues, List.map_cons, List.map_nil, List.sum_cons, List.sum_nil]
    unfold wrap64
    omega
  | cons p rest ih =>
    obtain ⟨k', x⟩ := p
    simp only [mapAddTo]
    by_cases hk : k' = k
    · rw [if_pos hk]
      simp only [sumValues, List.map_cons, List.sum_cons]
      unfold wrap64
      omega
    · rw [if_neg hk]
      simp only [sumValues, List.map_cons, List.sum_cons] at ih ⊢
      unfold wrap64 at ih ⊢
      omega

theorem mapAddTo_sum_exact (m : OwnerMap) (k : String) (v : Int)
    (hpos : ∀ p ∈ m, 0 ≤ p.2) (hv : 0 ≤ v) (hsum : sumValues m + v ≤ maxInt) :
    sumValues (mapAddTo m k v) = sumValues m + v ∧ ∀ p ∈ mapAddTo m k v, 0 ≤ p.2 := by
  unfold maxInt at hsum
  induction m with
  | nil =>
    have hw : wrap64 (0 + v) = v := by
      rw [zero_add]
      simp only [sumValues, List.map_nil, List.sum_nil, zero_add] at hsum
      exact wrap64_of_range (by omega) (by omega)
    simp only [mapAddTo, hw, sumValues, List.map_cons, List.map_nil, List.sum_cons,
      List.sum_nil]
    refine ⟨by ring, ?_⟩
    intro p hp
    simp only [List.mem_singleton] at hp
    subst hp
    exact hv
  | cons p rest ih =>
    obtain ⟨k', x⟩ := p
    have hx : 0 ≤ x := hpos (k', x) (List.mem_cons_self _ _)
    have hrest : ∀ p ∈ rest, 0 ≤ p.2 := fun p hp => hpos p (List.mem_cons_of_mem _ hp)
    have hnn : 0 ≤ sumValues rest := by
      unfold sumValues
      apply List.sum_nonneg
      intro y hy
      obtain ⟨p, hp, rfl⟩ := List.mem_map.mp hy
      exact hrest p hp
    simp only [sumValues, List.map_cons, List.sum_cons] at hsum
    have hsr : (rest.map Prod.snd).sum = sumValues rest := rfl
    simp only [mapAddTo]
    by_cases hk : k' = k
    · rw [if_pos hk]
      have hw : wrap64 (x + v) = x + v := wrap64_of_range (by omega) (by omega)
      simp only [hw, sumValues, List.map_cons, List.sum_cons]
      refine ⟨by ring, ?_⟩
      intro p hp
      rcases List.mem_cons.mp hp with h | h
      · subst h; simp only; omega
      · exact hrest p h
    · rw [if_neg hk]
      obtain ⟨ih1, ih2⟩ := ih hrest (by omega)
      simp only [sumValues, List.map_cons, List.sum_cons] at ih1 ⊢
      refine ⟨by rw [ih1]; ring, ?_⟩
      intro p hp
      rcases List.mem_cons.mp hp with h | h
      · subst h; exact hx
      · exact ih2 p h

/-- The sum of the owner map and `TotalSize` agree modulo `2 ^ 64` after any
sequence of calls. -/
theorem processObjects_owner_sum (a a' : Analysis) (objs : List Object)
    (hT : wrap64 (sumValues a.SizePerOwnerID) = a.TotalSize)
    (h : processObjects a objs = some a') :
    wrap64 (sumValues a'.SizePerOwnerID) = a'.TotalSize := by
  induction objs generalizing a with
  | nil =>
    simp only [processObjects, Option.some.injEq] at h
    subst h
    exact hT
  | cons o rest ih =>
    simp only [processObjects] at h
    cases h1 : processObject a o with
    | none => simp [h1] at h
    | some a1 =>
      rw [h1] at h
      simp only at h
      obtain ⟨-, fT, fM, -⟩ := processObject_fields a a1 o h1
      apply ih a1 _ h
      rw [fM, fT, mapAddTo_sum_wrap, ← hT, wrap64_wrap64_add]

/-- Without overflow the sum of the owner map, `TotalSize` and the sum of the
sizes are the same number. -/
theorem processObjects_owner_sum_exact (a a' : Analysis) (objs : List Object)
    (hpos : ∀ p ∈ a.SizePerOwnerID, 0 ≤ p.2)
    (hT : sumValues a.SizePerOwnerID = a.TotalSize)
    (hsz : ∀ o ∈ objs, 0 ≤ o.Size) (hsum : a.TotalSize + sumSizes objs ≤ maxInt)
    (h : processObjects a objs = some a') :
    sumValues a'.SizePerOwnerID = a'.TotalSize
      ∧ a'.TotalSize = a.TotalSize + sumSizes objs := by
  induction objs generalizing a with
  | nil =>
    simp only [processObjects, Option.some.injEq] at h
    subst h
    simp [sumSizes, hT]
  | cons o rest ih =>
    simp only [processObjects] at h
    cases h1 : processObject a o with
    | none => simp [h1] at h
    | some a1 =>
      rw [h1] at h
      simp only at h
      obtain ⟨-, fT, fM, -⟩ := processObject_fields a a1 o h1
      have ho : 0 ≤ o.Size := hsz o (List.mem_cons_self _ _)
      have hrest : ∀ x ∈ rest, 0 ≤ x.Size := fun x hx => hsz x (List.mem_cons_of_mem _ hx)
      have hnn : 0 ≤ sumSizes rest := by
        unfold sumSizes
        apply List.sum_nonneg
        intro y hy
        obtain ⟨x, hx, rfl⟩ := List.mem_map.mp hy
        exact hrest x hx
      have hcons : sumSizes (o :: rest) = o.Size + sumSizes rest := by
        simp [sumSizes]
      have hT0 : 0 ≤ a.TotalSize := by
        rw [← hT]
        unfold sumValues
        apply List.sum_nonneg
        intro y hy
        obtain ⟨p, hp, rfl⟩ := List.mem_map.mp hy
        exact hpos p hp
      rw [hcons] at hsum
      have hmax : a.TotalSize + o.Size ≤ maxInt := by omega
      have hw : wrap64 (a.TotalSize + o.Size) = a.TotalSize + o.Size := by
        unfold maxInt at hmax
        exact wrap64_of_range (by omega) (by omega)
      obtain ⟨m1, m2⟩ := mapAddTo_sum_exact a.SizePerOwnerID o.OwnerID o.Size hpos ho
        (by rw [hT]; exact hmax)
      have ih' := ih a1 (by rw [fM]; exact m2) (by rw [fM, fT, m1, hT, hw]) hrest
        (by rw [fT, hw]; omega) h
      refine ⟨ih'.1, ?_⟩
      rw [ih'.2, fT, hw, hcons]
      ring

/-! ## The callback `handleListObjectOutput` -/

theorem completeAnalysis_eq (b : Bucket) (a : Analysis) (hA : b.Analysis = some a) :
    completeAnalysis b
      = (onlyN (sortStrings a.Objects) a.DisplayObjectCount).map
          (fun s => { b with Analysis := some { a with Objects := s },
                             AnalysisChannel := b.AnalysisChannel ++ [{ a with Objects := s }] }) := by
  unfold completeAnalysis
  rw [hA]
  simp only
  cases onlyN (sortStrings a.Objects) a.DisplayObjectCount <;> rfl

theorem processContents_eq (b : Bucket) (a : Analysis) (objs : List Object)
    (hA : b.Analysis = some a) :
    processContents b objs
      = (processObjects a objs).map (fun a' => { b with Analysis := some a' }) := by
  induction objs generalizing b a with
  | nil =>
    cases b
    simp only at hA
    subst hA
    rfl
  | cons o rest ih =>
    simp only [processContents, processObjects, hA]
    cases processObject a o with
    | none => rfl
    | some a1 => exact ih { b with Analysis := some a1 } a1 rfl

theorem handleListObjectOutput_eq (b : Bucket) (a : Analysis) (page : List Object)
    (lastPage : Bool) (hA : b.Analysis = some a) :
    handleListObjectOutput b page lastPage
      = match processObjects a page with
        | none => none
        | some a1 =>
          if lastPage then
            (completeAnalysis { b with Analysis := some a1 }).map (fun b2 => (b2, false))
          else some ({ b with Analysis := some a1 }, true) := by
  unfold handleListObjectOutput
  rw [processContents_eq b a page hA]
  cases processObjects a page with
  | none => rfl
  | some a1 =>
    cases lastPage with
    | false => rfl
    | true =>
      simp only [Option.map_some', if_true, Bool.not_true]
      cases completeAnalysis { b with Analysis := some a1 } <;> rfl

/-- One call of the callback: the counters are those of `processObject` applied
to the page, and the working list does not grow by more than the page. -/
theorem handleListObjectOutput_counters (b b' : Bucket) (a : Analysis) (page : List Object)
    (lastPage c : Bool) (hA : b.Analysis = some a)
    (hT : wrap64 a.TotalSize = a.TotalSize) (hC : wrap64 a.TotalCount = a.TotalCount)
    (h : handleListObjectOutput b page lastPage = some (b', c)) :
    ∃ a', b'.Analysis = some a'
      ∧ a'.TotalSize = wrap64 (a.TotalSize + sumSizes page)
      ∧ a'.TotalCount = wrap64 (a.TotalCount + page.length)
      ∧ a'.DisplayObjectCount = a.DisplayObjectCount
      ∧ ((a.Objects.length : Int) + page.length ≤ maxInt
          → minInt ≤ a.DisplayObjectCount → a.DisplayObjectCount ≤ maxInt
          → a'.Objects.length ≤ a.Objects.length + page.length) := by
  rw [handleListObjectOutput_eq b a page lastPage hA] at h
  cases h1 : processObjects a page with
  | none => simp [h1] at h
  | some a1 =>
    obtain ⟨cT, cC, cD, cO⟩ := processObjects_counters a a1 page hT hC h1
    rw [h1] at h
    cases lastPage with
    | false =>
      simp only [Bool.false_eq_true, if_false, Option.some.injEq, Prod.mk.injEq] at h
      obtain ⟨hb, -⟩ := h
      subst hb
      exact ⟨a1, rfl, cT, cC, cD, fun _ _ _ => by omega⟩
    | true =>
      simp only [if_true] at h
      rw [completeAnalysis_eq _ a1 rfl] at h
      cases hs : onlyN (sortStrings a1.Objects) a1.DisplayObjectCount with
      | none => simp [hs] at h
      | some s =>
        simp only [hs, Option.map_some', Option.some.injEq, Prod.mk.injEq] at h
        obtain ⟨hb, -⟩ := h
        subst hb
        refine ⟨_, rfl, cT, cC, cD, ?_⟩
        intro hlen hlo hhi
        have hl : ((sortStrings a1.Objects).length : Int) ≤ maxInt := by
          rw [sortStrings_length, cO]
          push_cast
          exact hlen
        have hsub := onlyN_sublist_length _ _ hl (by rw [cD]; exact hlo)
          (by rw [cD]; exact hhi) s hs
        have := hsub.1.length_le
        rw [sortStrings_length, cO] at this
        exact this

theorem handleListObjectOutput_isSome (b : Bucket) (a : Analysis) (page : List Object)
    (lastPage : Bool) (hA : b.Analysis = some a)
    (hT : wrap64 a.TotalSize = a.TotalSize) (hC : wrap64 a.TotalCount = a.TotalCount)
    (hsz : ∀ o ∈ page, o.Size ≤ maxInt)
    (hlen : (a.Objects.length : Int) + page.length ≤ maxInt)
    (hlo : minInt < a.DisplayObjectCount) (hhi : a.DisplayObjectCount ≤ maxInt) :
    ∃ b', handleListObjectOutput b page lastPage = some (b', !lastPage) := by
  rw [handleListObjectOutput_eq b a page lastPage hA]
  obtain ⟨a1, h1⟩ := processObjects_isSome a page hsz
  obtain ⟨-, -, cD, cO⟩ := processObjects_counters a a1 page hT hC h1
  rw [h1]
  cases lastPage with
  | false => exact ⟨_, rfl⟩
  | true =>
    simp only [if_true]
    rw [completeAnalysis_eq _ a1 rfl]
    have hl : ((sortStrings a1.Objects).length : Int) ≤ maxInt := by
      rw [sortStrings_length, cO]
      push_cast
      exact hlen
    obtain ⟨s, hs⟩ := onlyN_isSome (sortStrings a1.Objects) a1.DisplayObjectCount hl
      (by rw [cD]; exact hlo) (by rw [cD]; exact hhi)
    simp only [hs, Option.map_some', Bool.not_true]
    exact ⟨_, rfl⟩

/-- Counters after a sequence of callback invocations. -/
theorem handlePages_counters (b b' : Bucket) (a : Analysis) (calls : List (List Object × Bool))
    (hA : b.Analysis = some a)
    (hT : wrap64 a.TotalSize = a.TotalSize) (hC : wrap64 a.TotalCount = a.TotalCount)
    (h : handlePages b calls = some b') :
    ∃ a', b'.Analysis = some a'
      ∧ a'.TotalSize = wrap64 (a.TotalSize + sumSizes (calls.map Prod.fst).flatten)
      ∧ a'.TotalCount = wrap64 (a.TotalCount + ((calls.map Prod.fst).flatten.length : Int)) := by
  induction calls generalizing b a with
  | nil =>
    simp only [handlePages, Option.some.injEq] at h
    subst h
    exact ⟨a, hA, by simp [sumSizes, hT], by simp [hC]⟩
  | cons call rest ih =>
    obtain ⟨page, lastPage⟩ := call
    simp only [handlePages] at h
    cases h1 : handleListObjectOutput b page lastPage with
    | none => simp [h1] at h
    | some r =>
      obtain ⟨b1, c⟩ := r
      rw [h1] at h
      simp only at h
      obtain ⟨a1, hA1, sT, sC, -, -⟩ :=
        handleListObjectOutput_counters b b1 a page lastPage c hA hT hC h1
      obtain ⟨a', hA', iT, iC⟩ := ih b1 a1 hA1 (by rw [sT, wrap64_idem])
        (by rw [sC, wrap64_idem]) h
      refine ⟨a', hA', ?_, ?_⟩
      · rw [iT, sT, wrap64_wrap64_add]
        simp only [sumSizes, List.map_cons, List.flatten_cons, List.map_append, List.sum_append]
        congr 1
        ring
      · rw [iC, sC, wrap64_wrap64_add]
        simp only [List.map_cons, List.flatten_cons, List.length_append, Nat.cast_add]
        congr 1
        ring

theorem handlePages_isSome (b : Bucket) (a : Analysis) (calls : List (List Object × Bool))
    (hA : b.Analysis = some a)
    (hT : wrap64 a.TotalSize = a.TotalSize) (hC : wrap64 a.TotalCount = a.TotalCount)
    (hsz : ∀ o ∈ (calls.map Prod.fst).flatten, o.Size ≤ maxInt)
    (hlen : (a.Objects.length : Int) + (calls.map Prod.fst).flatten.length ≤ maxInt)
    (hlo : minInt < a.DisplayObjectCount) (hhi : a.DisplayObjectCount ≤ maxInt) :
    ∃ b', handlePages b calls = some b' := by
  induction calls generalizing b a with
  | nil => exact ⟨b, rfl⟩
  | cons call rest ih =>
    obtain ⟨page, lastPage⟩ := call
    simp only [List.map_cons, List.flatten_cons, List.mem_append, List.length_append,
      Nat.cast_add] at hsz hlen
    have hnn : (0 : Int) ≤ ((rest.map Prod.fst).flatten.length : Int) := Int.natCast_nonneg _
    obtain ⟨b1, h1⟩ := handleListObjectOutput_isSome b a page lastPage hA hT hC
      (fun o ho => hsz o (Or.inl ho)) (by omega) hlo hhi
    obtain ⟨a1, hA1, sT, sC, sD, sO⟩ :=
      handleListObjectOutput_counters b b1 a page lastPage _ hA hT hC h1
    have hO := sO (by omega) (le_of_lt hlo) hhi
    obtain ⟨b2, h2⟩ := ih b1 a1 hA1 (by rw [sT, wrap64_idem]) (by rw [sC, wrap64_idem])
      (fun o ho => hsz o (Or.inr ho)) (by omega)
      (by rw [sD]; exact hlo) (by rw [sD]; exact hhi)
    exact ⟨b2, by simp only [handlePages, h1, h2]⟩

/-! ## The watermark `LastModified` -/

theorem Time.not_before_self (t : Time) : t.Before t = false := by
  simp [Time.Before]

theorem Time.not_before_trans (t u v : Time) (h1 : t.Before u = false)
    (h2 : u.Before v = false) : t.Before v = false := by
  simp only [Time.Before, Bool.or_eq_false_iff, Bool.and_eq_false_iff, decide_eq_false_iff_not]
    at h1 h2 ⊢
  omega

theorem Time.not_before_of_before (t u : Time) (h : t.Before u = true) :
    u.Before t = false := by
  simp only [Time.Before, Bool.or_eq_true, Bool.and_eq_true, decide_eq_true_eq,
    Bool.or_eq_false_iff, Bool.and_eq_false_iff, decide_eq_false_iff_not] at h ⊢
  omega

theorem Time.equal_of_not_before (t u : Time) (h1 : t.Before u = false)
    (h2 : u.Before t = false) : t.Equal u = true := by
  simp only [Time.Before, Time.Equal, Bool.or_eq_false_iff, Bool.and_eq_false_iff,
    decide_eq_false_iff_not, Bool.and_eq_true, decide_eq_true_eq] at h1 h2 ⊢
  omega

/-- The watermark after a sequence of calls is not before the starting value
nor before any processed timestamp, and it is one of these values. -/
theorem processObjects_lastModified (a a' : Analysis) (objs : List Object)
    (h : processObjects a objs = some a') :
    a'.LastModified.Before a.LastModified = false
    ∧ (∀ o ∈ objs, a'.LastModified.Before o.LastModified = false)
    ∧ (a'.LastModified = a.LastModified ∨ ∃ o ∈ objs, a'.LastModified = o.LastModified) := by
  induction objs generalizing a with
  | nil =>
    simp only [processObjects, Option.some.injEq] at h
    subst h
    exact ⟨Time.not_before_self _, ⟨fun o ho => absurd ho (List.not_mem_nil o), Or.inl rfl⟩⟩
  | cons o rest ih =>
    simp only [processObjects] at h
    cases h1 : processObject a o with
    | none => simp [h1] at h
    | some a1 =>
      rw [h1] at h
      simp only at h
      obtain ⟨-, -, -, fL, -⟩ := processObject_fields a a1 o h1
      obtain ⟨i1, i2, i3⟩ := ih a1 h
      by_cases hb : a.LastModified.Before o.LastModified = true
      · rw [if_pos hb] at fL
        rw [fL] at i1 i3
        refine ⟨?_, ?_, ?_⟩
        · exact Time.not_before_trans _ _ _ i1 (Time.not_before_of_before _ _ hb)
        · intro x hx
          rcases List.mem_cons.mp hx with hx | hx
          · rw [hx]; exact i1
          · exact i2 x hx
        · rcases i3 with i3 | ⟨x, hx, i3⟩
          · exact Or.inr ⟨o, List.mem_cons_self _ _, i3⟩
          · exact Or.inr ⟨x, List.mem_cons_of_mem _ hx, i3⟩
      · rw [if_neg hb] at fL
        rw [fL] at i1 i3
        have hb' : a.LastModified.Before o.LastModified = false := by simpa using hb
        refine ⟨i1, ?_, ?_⟩
        · intro x hx
          rcases List.mem_cons.mp hx with hx | hx
          · rw [hx]; exact Time.not_before_trans _ _ _ i1 hb'
          · exact i2 x hx
        · rcases i3 with i3 | ⟨x, hx, i3⟩
          · exact Or.inl i3
          · exact Or.inr ⟨x, List.mem_cons_of_mem _ hx, i3⟩

/-! ## Claims on `onlyN` and `completeAnalysis` -/

/-- C1: for every list `a` (a slice, so of length at most `maxInt`) and every
display limit `n` with `0 ≤ n ≤ maxInt`, `onlyN a n` returns exactly the last
`min n (len a)` entries of `a` in their order; `onlyN a 0` is empty; over
`[a,b,c,d,e,f]` the limit 3 gives `[d,e,f]` and the limit 10 gives the whole
list. -/
theorem onlyN_nonneg_keeps_last (a : List String) (n : Int)
    (hlen : (a.length : Int) ≤ maxInt) (h0 : 0 ≤ n) (hn : n ≤ maxInt) :
    onlyN a n = some (a.drop (a.length - min n.toNat a.length))
    ∧ (a.drop (a.length - min n.toNat a.length)).length = min n.toNat a.length
    ∧ onlyN a 0 = some []
    ∧ onlyN ["a", "b", "c", "d", "e", "f"] 3 = some ["d", "e", "f"]
    ∧ onlyN ["a", "b", "c", "d", "e", "f"] 10 = some ["a", "b", "c", "d", "e", "f"] := by
  unfold maxInt at hlen hn
  refine ⟨onlyN_of_nonneg a n (by omega) h0 (by omega), ?_, ?_, by decide, by decide⟩
  · rw [List.length_drop]; omega
  · rw [onlyN_of_nonneg a 0 (by omega) (le_refl 0) (by norm_num)]
    simp

/-- C1 at the list `[x, y, z]` and the limit 2. -/
theorem onlyN_nonneg_keeps_last_witness :
    onlyN ["x", "y", "z"] 2 = some ["y", "z"] :=
  (onlyN_nonneg_keeps_last ["x", "y", "z"] 2 (by decide) (by decide) (by decide)).1

/-- C2: at the smallest machine integer `-2^63` the negation `n = -n` wraps
back to `-2^63`, the clamp does not apply and `a[len(a)+n:]` panics, for the
six-entry list of the tests as for the empty list; at the limits -3 and -10
the function returns `[a,b,c]` and the whole list. -/
theorem onlyN_panics_at_minInt :
    onlyN ["a", "b", "c", "d", "e", "f"] (-9223372036854775808) = none
    ∧ onlyN [] (-9223372036854775808) = none
    ∧ onlyN ["a", "b", "c", "d", "e", "f"] (-3) = some ["a", "b", "c"]
    ∧ onlyN ["a", "b", "c", "d", "e", "f"] (-10) = some ["a", "b", "c", "d", "e", "f"] := by
  refine ⟨by decide, by decide, by decide, by decide⟩

/-- C3: for every bucket whose `Analysis` is `a` (a working list of length at
most `maxInt`, a display limit `N` of the machine integer range), whenever
`completeAnalysis` returns, it has sent exactly one message, the `Analysis`
with `Objects` replaced by a sample `s` such that `s` is `onlyN` applied to
the ascending sort of the accumulated descriptors (`sortStrings`, an ascending
rearrangement of them), `s` is sorted in ascending order and `s` has at most
`|N|` entries; and `completeAnalysis` does return for every `N` other than
`minInt`. -/
theorem completeAnalysis_sample (b : Bucket) (a : Analysis) (hA : b.Analysis = some a)
    (hlen : (a.Objects.length : Int) ≤ maxInt)
    (hlo : minInt ≤ a.DisplayObjectCount) (hhi : a.DisplayObjectCount ≤ maxInt) :
    (∀ b', completeAnalysis b = some b' →
      ∃ s, b'.AnalysisChannel = b.AnalysisChannel ++ [{ a with Objects := s }]
        ∧ onlyN (sortStrings a.Objects) a.DisplayObjectCount = some s
        ∧ List.Sorted (fun x y => stringLess y x = false) s
        ∧ s.length ≤ a.DisplayObjectCount.natAbs)
    ∧ List.Sorted (fun x y => stringLess y x = false) (sortStrings a.Objects)
    ∧ (sortStrings a.Objects).Perm a.Objects
    ∧ (a.DisplayObjectCount ≠ minInt → ∃ b', completeAnalysis b = some b') := by
  have hlen' : ((sortStrings a.Objects).length : Int) ≤ maxInt := by
    rw [sortStrings_length]; exact hlen
  refine ⟨?_, sortStrings_sorted _, sortStrings_perm _, ?_⟩
  · intro b' hb'
    unfold completeAnalysis at hb'
    rw [hA] at hb'
    simp only at hb'
    cases hs : onlyN (sortStrings a.Objects) a.DisplayObjectCount with
    | none => rw [hs] at hb'; cases hb'
    | some s =>
      rw [hs] at hb'
      simp only [Option.some.injEq] at hb'
      have hsub := onlyN_sublist_length _ _ hlen' hlo hhi s hs
      refine ⟨s, ?_, rfl, ?_, hsub.2⟩
      · rw [← hb']
      · exact List.Pairwise.sublist hsub.1 (sortStrings_sorted a.Objects)
  · intro hne
    have hlt : minInt < a.DisplayObjectCount := lt_of_le_of_ne hlo (Ne.symm hne)
    obtain ⟨s, hs⟩ := onlyN_isSome _ _ hlen' hlt hhi
    unfold completeAnalysis
    rw [hA]
    simp only [hs]
    exact ⟨_, rfl⟩

/-- C3 at a bucket with three accumulated descriptors and the limit 2. -/
theorem completeAnalysis_sample_witness :
    completeAnalysis ⟨"b", Time.zero, some ⟨"b", Time.zero, Time.zero, 0, 2, 3, [],
        ["k2", "k3", "k1"], none⟩, []⟩
      = some ⟨"b", Time.zero, some ⟨"b", Time.zero, Time.zero, 0, 2, 3, [],
        ["k2", "k3"], none⟩, [⟨"b", Time.zero, Time.zero, 0, 2, 3, [], ["k2", "k3"], none⟩]⟩
    ∧ ∃ b', completeAnalysis ⟨"b", Time.zero, some ⟨"b", Time.zero, Time.zero, 0, 2, 3, [],
        ["k2", "k3", "k1"], none⟩, []⟩ = some b' :=
  ⟨by decide,
    (completeAnalysis_sample ⟨"b", Time.zero, some ⟨"b", Time.zero, Time.zero, 0, 2, 3, [],
        ["k2", "k3", "k1"], none⟩, []⟩ ⟨"b", Time.zero, Time.zero, 0, 2, 3, [],
        ["k2", "k3", "k1"], none⟩ rfl (by decide) (by decide) (by decide)).2.2.2 (by decide)⟩

/-! ## Claims on the accumulation -/

set_option maxRecDepth 100000 in
/-- C4, counterexample: two objects of `2^62` bytes each, processed from a
fresh `Analysis`, leave `TotalSize = -2^63` (the 64-bit sum wraps around)
while the sum of their sizes is `2^63`. -/
theorem totalSize_wraps_counterexample :
    (processObjects (newAnalysis ⟨"b", Time.zero, none, []⟩ 0)
        [⟨"k1", Time.zero, 4611686018427387904, "o"⟩,
         ⟨"k2", Time.zero, 4611686018427387904, "o"⟩]).map Analysis.TotalSize
      = some (-9223372036854775808)
    ∧ sumSizes [⟨"k1", Time.zero, 4611686018427387904, "o"⟩,
         ⟨"k2", Time.zero, 4611686018427387904, "o"⟩] = 9223372036854775808 := by
  constructor <;> decide

/-- C4, amended: for every sequence of objects with 64-bit sizes, processed
from a fresh `Analysis`, `processObject` returns every time, `TotalSize` is the
sum of the sizes reduced to 64 bits (the sum itself when it lies in the 64-bit
range) and `TotalCount` is the number of objects reduced to 64 bits (the
number itself up to `maxInt`); feeding the same objects page by page through
`handleListObjectOutput` gives the same two counters whenever the calls
return, and they do return when the display count is not `minInt`; two pages
of one 1024-byte object each give `TotalSize` 2048. -/
theorem processObject_totals (b : Bucket) (n : Int) (objs : List Object)
    (hsz : ∀ o ∈ objs, o.Size ≤ maxInt) :
    (∃ a, processObjects (newAnalysis b n) objs = some a
      ∧ a.TotalSize = wrap64 (sumSizes objs)
      ∧ a.TotalCount = wrap64 objs.length
      ∧ (minInt ≤ sumSizes objs → sumSizes objs ≤ maxInt → a.TotalSize = sumSizes objs)
      ∧ ((objs.length : Int) ≤ maxInt → a.TotalCount = objs.length))
    ∧ (∀ calls b', (calls.map Prod.fst).flatten = objs →
        handlePages { b with Analysis := some (newAnalysis b n) } calls = some b' →
        ∃ a, b'.Analysis = some a ∧ a.TotalSize = wrap64 (sumSizes objs)
          ∧ a.TotalCount = wrap64 objs.length)
    ∧ (∀ calls, (calls.map Prod.fst).flatten = objs →
        minInt < n → n ≤ maxInt → (objs.length : Int) ≤ maxInt →
        ∃ b', handlePages { b with Analysis := some (newAnalysis b n) } calls = some b')
    ∧ (handlePages ⟨"Test", Time.zero, some (newAnalysis ⟨"", Time.zero, none, []⟩ 0), []⟩
          [([⟨"key1", ⟨63082281600, 0, 0⟩, 1024, "ownerid1"⟩], false),
           ([⟨"key2", ⟨63082281600, 0, 0⟩, 1024, "ownerid2"⟩], true)]).map
        (fun b' => b'.Analysis.map Analysis.TotalSize) = some (some 2048) := by
  have h0T : wrap64 (newAnalysis b n).TotalSize = (newAnalysis b n).TotalSize := by
    simp only [newAnalysis]; decide
  have h0C : wrap64 (newAnalysis b n).TotalCount = (newAnalysis b n).TotalCount := by
    simp only [newAnalysis]; decide
  have zT : (newAnalysis b n).TotalSize = 0 := rfl
  have zC : (newAnalysis b n).TotalCount = 0 := rfl
  refine ⟨?_, ?_, ?_, by decide⟩
  · obtain ⟨a, ha⟩ := processObjects_isSome (newAnalysis b n) objs hsz
    obtain ⟨cT, cC, -, -⟩ := processObjects_counters _ a objs h0T h0C ha
    rw [zT, zero_add] at cT
    rw [zC, zero_add] at cC
    refine ⟨a, ha, cT, cC, ?_, ?_⟩
    · intro hlo hhi
      rw [cT]
      unfold minInt at hlo
      unfold maxInt at hhi
      exact wrap64_of_range hlo (by omega)
    · intro hlen
      rw [cC]
      unfold maxInt at hlen
      exact wrap64_of_range (by omega) (by omega)
  · intro calls b' hcalls h
    obtain ⟨a, hA, cT, cC⟩ := handlePages_counters _ b' (newAnalysis b n) calls rfl h0T h0C h
    rw [zT, zero_add, hcalls] at cT
    rw [zC, zero_add, hcalls] at cC
    exact ⟨a, hA, cT, cC⟩
  · intro calls hcalls hlo hhi hlen
    apply handlePages_isSome _ (newAnalysis b n) calls rfl h0T h0C
    · rw [hcalls]; exact hsz
    · rw [hcalls]
      simpa [newAnalysis] using hlen
    · exact hlo
    · exact hhi

/-- C4 at two objects of 1024 bytes: the counters are 2048 and 2. -/
theorem processObject_totals_witness :
    ∃ a, processObjects (newAnalysis ⟨"Test", Time.zero, none, []⟩ (-5))
          [⟨"key1", ⟨63082281600, 0, 0⟩, 1024, "ownerid1"⟩,
           ⟨"key2", ⟨63082281600, 0, 0⟩, 1024, "ownerid2"⟩] = some a
      ∧ a.TotalSize = 2048 ∧ a.TotalCount = 2 := by
  obtain ⟨a, ha, -, -, hT, hC⟩ :=
    (processObject_totals ⟨"Test", Time.zero, none, []⟩ (-5)
      [⟨"key1", ⟨63082281600, 0, 0⟩, 1024, "ownerid1"⟩,
       ⟨"key2", ⟨63082281600, 0, 0⟩, 1024, "ownerid2"⟩] (by decide)).1
  exact ⟨a, ha, hT (by decide) (by decide), hC (by decide)⟩

set_option maxRecDepth 100000 in
/-- C5, counterexample: two objects of `2^62` bytes with different owners,
processed from a fresh `Analysis`, leave the values of `SizePerOwnerID` with
sum `2^63` and `TotalSize = -2^63`. -/
theorem ownerSum_wraps_counterexample :
    (processObjects (newAnalysis ⟨"b", Time.zero, none, []⟩ 0)
        [⟨"k1", Time.zero, 4611686018427387904, "o1"⟩,
         ⟨"k2", Time.zero, 4611686018427387904, "o2"⟩]).map
        (fun a => (sumValues a.SizePerOwnerID, a.TotalSize))
      = some (9223372036854775808, -9223372036854775808) := by
  decide

/-- C5, amended: after every sequence of `processObject` calls on objects with
64-bit sizes, from a fresh `Analysis` (so after every call of a longer
sequence, whose calls so far form such a sequence), the sum of the values of
`SizePerOwnerID` reduced to 64 bits equals `TotalSize`; the sum itself equals
`TotalSize` when it lies in the 64-bit range, in particular when the sizes are
non-negative and their total is at most `maxInt`. -/
theorem ownerSum_matches_total (b : Bucket) (n : Int) (objs : List Object)
    (hsz : ∀ o ∈ objs, o.Size ≤ maxInt) :
    ∃ a, processObjects (newAnalysis b n) objs = some a
      ∧ wrap64 (sumValues a.SizePerOwnerID) = a.TotalSize
      ∧ (minInt ≤ sumValues a.SizePerOwnerID → sumValues a.SizePerOwnerID ≤ maxInt →
          sumValues a.SizePerOwnerID = a.TotalSize)
      ∧ ((∀ o ∈ objs, 0 ≤ o.Size) → sumSizes objs ≤ maxInt →
          sumValues a.SizePerOwnerID = a.TotalSize ∧ a.TotalSize = sumSizes objs) := by
  obtain ⟨a, ha⟩ := processObjects_isSome (newAnalysis b n) objs hsz
  have hw := processObjects_owner_sum (newAnalysis b n) a objs
    (show wrap64 0 = 0 by decide) ha
  refine ⟨a, ha, hw, ?_, ?_⟩
  · intro hlo hhi
    rw [← hw]
    unfold minInt at hlo
    unfold maxInt at hhi
    exact (wrap64_of_range hlo (by omega)).symm
  · intro hpos hsum
    have := processObjects_owner_sum_exact (newAnalysis b n) a objs
      (fun p hp => absurd hp (List.not_mem_nil p)) rfl hpos
      (by simpa [newAnalysis] using hsum) ha
    refine ⟨this.1, ?_⟩
    rw [this.2]
    simp [newAnalysis]

/-- C5 at three objects of two owners: both sides are 3072. -/
theorem ownerSum_matches_total_witness :
    ∃ a, processObjects (newAnalysis ⟨"Test", Time.zero, none, []⟩ (-5))
          [⟨"key1", ⟨63082281600, 0, 0⟩, 1024, "ownerid1"⟩,
           ⟨"key2", ⟨63082281600, 0, 0⟩, 1024, "ownerid2"⟩,
           ⟨"key3", ⟨63082281600, 0, 0⟩, 1024, "ownerid1"⟩] = some a
      ∧ sumValues a.SizePerOwnerID = a.TotalSize ∧ a.TotalSize = 3072 := by
  obtain ⟨a, ha, -, -, h⟩ :=
    ownerSum_matches_total ⟨"Test", Time.zero, none, []⟩ (-5)
      [⟨"key1", ⟨63082281600, 0, 0⟩, 1024, "ownerid1"⟩,
       ⟨"key2", ⟨63082281600, 0, 0⟩, 1024, "ownerid2"⟩,
       ⟨"key3", ⟨63082281600, 0, 0⟩, 1024, "ownerid1"⟩] (by decide)
  obtain ⟨h1, h2⟩ := h (by decide) (by decide)
  exact ⟨a, ha, h1, by rw [h2]; decide⟩

/-- C6, counterexample: one object last modified at 0000-12-31T23:59:59Z, one
second before the zero time; after processing it from a fresh `Analysis`,
`LastModified` is still the zero time 0001-01-01T00:00:00Z, which is after the
timestamp of the only processed object. -/
theorem lastModified_counterexample :
    (processObjects (newAnalysis ⟨"b", Time.zero, none, []⟩ 0)
        [⟨"k1", ⟨-1, 0, 0⟩, 1, "o1"⟩]).map Analysis.LastModified = some Time.zero
    ∧ Time.Before ⟨-1, 0, 0⟩ Time.zero = true
    ∧ Time.Equal Time.zero ⟨-1, 0, 0⟩ = false
    ∧ Time.FormatRFC3339 ⟨-1, 0, 0⟩ = "0000-12-31T23:59:59Z" := by
  refine ⟨by decide, by decide, by decide, by decide⟩

/-- C6, amended: after every sequence of objects with 64-bit sizes, processed
from a fresh `Analysis`, `LastModified` is the later of the zero time and the
latest `lastModified` of the processed objects: no processed object is after
it, it is not before the zero time, it is the zero time or the timestamp of a
processed object, and when some processed object is not before the zero time
it is the same instant as the timestamp of a processed object, hence the
maximum among them. -/
theorem lastModified_is_latest (b : Bucket) (n : Int) (objs : List Object)
    (hsz : ∀ o ∈ objs, o.Size ≤ maxInt) :
    ∃ a, processObjects (newAnalysis b n) objs = some a
      ∧ (∀ o ∈ objs, a.LastModified.Before o.LastModified = false)
      ∧ a.LastModified.Before Time.zero = false
      ∧ (a.LastModified = Time.zero ∨ ∃ o ∈ objs, a.LastModified = o.LastModified)
      ∧ ((∃ o ∈ objs, o.LastModified.Before Time.zero = false) →
          ∃ o ∈ objs, a.LastModified.Equal o.LastModified = true) := by
  obtain ⟨a, ha⟩ := processObjects_isSome (newAnalysis b n) objs hsz
  obtain ⟨h1, h2, h3⟩ := processObjects_lastModified (newAnalysis b n) a objs ha
  have hz : (newAnalysis b n).LastModified = Time.zero := rfl
  rw [hz] at h1 h3
  refine ⟨a, ha, h2, h1, h3, ?_⟩
  rintro ⟨o, ho, hob⟩
  rcases h3 with h3 | ⟨x, hx, h3⟩
  · refine ⟨o, ho, Time.equal_of_not_before _ _ (h2 o ho) ?_⟩
    rw [h3]
    exact hob
  · refine ⟨x, hx, ?_⟩
    rw [h3]
    exact Time.equal_of_not_before _ _ (Time.not_before_self _) (Time.not_before_self _)

/-- C6 at three objects: the watermark is the timestamp of the second. -/
theorem lastModified_is_latest_witness :
    ∃ a, processObjects (newAnalysis ⟨"Test", Time.zero, none, []⟩ (-5))
          [⟨"key1", ⟨63082281600, 0, 0⟩, 1024, "ownerid1"⟩,
           ⟨"key2", ⟨63082281700, 5, 0⟩, 1024, "ownerid2"⟩,
           ⟨"key3", ⟨63082281700, 4, 0⟩, 1024, "ownerid1"⟩] = some a
      ∧ (∀ o ∈ [(⟨"key1", ⟨63082281600, 0, 0⟩, 1024, "ownerid1"⟩ : Object),
           ⟨"key2", ⟨63082281700, 5, 0⟩, 1024, "ownerid2"⟩,
           ⟨"key3", ⟨63082281700, 4, 0⟩, 1024, "ownerid1"⟩],
          a.LastModified.Before o.LastModified = false) := by
  obtain ⟨a, ha, h, -⟩ :=
    lastModified_is_latest ⟨"Test", Time.zero, none, []⟩ (-5)
      [⟨"key1", ⟨63082281600, 0, 0⟩, 1024, "ownerid1"⟩,
       ⟨"key2", ⟨63082281700, 5, 0⟩, 1024, "ownerid2"⟩,
       ⟨"key3", ⟨63082281700, 4, 0⟩, 1024, "ownerid1"⟩] (by decide)
  exact ⟨a, ha, h⟩

/-! ## `filterBuckets` -/

theorem startsWithChars_iff (s p : List Char) :
    startsWithChars s p = true ↔ ∃ v, s = p ++ v := by
  induction p generalizing s with
  | nil =>
    cases s <;> simp [startsWithChars]
  | cons d p ih =>
    cases s with
    | nil => simp [startsWithChars]
    | cons c s =>
      simp only [startsWithChars, Bool.and_eq_true, beq_iff_eq, ih, List.cons_append,
        List.cons.injEq]
      constructor
      · rintro ⟨hc, v, hv⟩
        exact ⟨v, hc, hv⟩
      · rintro ⟨v, hc, hv⟩
        exact ⟨hc, v, hv⟩

theorem containsChars_iff (s sub : List Char) :
    containsChars s sub = true ↔ ∃ u v, s = u ++ sub ++ v := by
  induction s with
  | nil =>
    simp only [containsChars, List.isEmpty_iff]
    constructor
    · intro h
      exact ⟨[], [], by simp [h]⟩
    · rintro ⟨u, v, h⟩
      have h' := congrArg List.length h
      simp only [List.length_nil, List.length_append] at h'
      exact List.length_eq_zero.mp (by omega)
  | cons c s ih =>
    simp only [containsChars, Bool.or_eq_true, startsWithChars_iff, ih]
    constructor
    · rintro (⟨v, hv⟩ | ⟨u, v, huv⟩)
      · exact ⟨[], v, by simpa using hv⟩
      · exact ⟨c :: u, v, by simp [huv]⟩
    · rintro ⟨u, v, huv⟩
      cases u with
      | nil => exact Or.inl ⟨v, by simpa using huv⟩
      | cons c' u =>
        simp only [List.cons_append, List.cons.injEq] at huv
        exact Or.inr ⟨u, v, huv.2⟩

theorem stringsContains_empty (s : String) : stringsContains s "" = true := by
  unfold stringsContains
  rw [containsChars_iff]
  exact ⟨[], s.toList, by simp⟩

theorem string_length_eq_zero (s : String) : s.length = 0 ↔ s = "" := by
  constructor
  · intro h
    apply String.ext
    have : s.data.length = 0 := h
    simpa using List.length_eq_zero.mp this
  · intro h
    subst h
    rfl

theorem filterBuckets_loop (incl excl : String) (buckets acc : List Bucket) :
    buckets.foldl
        (fun filtered b =>
          if stringsContains b.Name incl && (excl.length == 0 || !stringsContains b.Name excl)
          then filtered ++ [b] else filtered)
        acc
      = acc ++ buckets.filter (fun b =>
          stringsContains b.Name incl && (excl.length == 0 || !stringsContains b.Name excl)) := by
  induction buckets generalizing acc with
  | nil => simp
  | cons b rest ih =>
    simp only [List.foldl_cons, List.filter_cons]
    by_cases hp : (stringsContains b.Name incl
        && (excl.length == 0 || !stringsContains b.Name excl)) = true
    · rw [if_pos hp, if_pos hp, ih]
      simp
    · rw [if_neg hp, if_neg hp, ih]

/-- C7: `filterBuckets` returns the buckets that pass the test of the source,
in their order (the result is the input filtered by that test, so a sub-list
of it with nothing added): a bucket is in the result exactly when it is in the
input, its name contains `incl` and `excl` is empty or its name does not
contain `excl`; "contains" means that the text occurs as a contiguous block,
which the empty text always does; for the single bucket `foobar`, include
`foo` keeps it, include `bad` drops it, exclude `foo` drops it and exclude
`not there` keeps it. -/
theorem filterBuckets_spec (buckets : List Bucket) (incl excl : String) :
    filterBuckets buckets incl excl
      = buckets.filter (fun b =>
          stringsContains b.Name incl && (excl.length == 0 || !stringsContains b.Name excl))
    ∧ (filterBuckets buckets incl excl).Sublist buckets
    ∧ (∀ b, b ∈ filterBuckets buckets incl excl ↔
        b ∈ buckets ∧ stringsContains b.Name incl = true
          ∧ (excl = "" ∨ stringsContains b.Name excl = false))
    ∧ (∀ s sub, stringsContains s sub = true ↔ ∃ u v, s.toList = u ++ sub.toList ++ v)
    ∧ (∀ s, stringsContains s "" = true)
    ∧ filterBuckets [⟨"foobar", Time.zero, none, []⟩] "foo" ""
        = [⟨"foobar", Time.zero, none, []⟩]
    ∧ filterBuckets [⟨"foobar", Time.zero, none, []⟩] "bad" "" = []
    ∧ filterBuckets [⟨"foobar", Time.zero, none, []⟩] "" "foo" = []
    ∧ filterBuckets [⟨"foobar", Time.zero, none, []⟩] "" "not there"
        = [⟨"foobar", Time.zero, none, []⟩] := by
  have heq : filterBuckets buckets incl excl
      = buckets.filter (fun b =>
          stringsContains b.Name incl
            && (excl.length == 0 || !stringsContains b.Name excl)) := by
    unfold filterBuckets
    rw [filterBuckets_loop]
    simp
  refine ⟨heq, ?_, ?_, ?_, stringsContains_empty, by decide, by decide, by decide, by decide⟩
  · rw [heq]
    exact List.filter_sublist _
  · intro b
    rw [heq, List.mem_filter]
    simp only [Bool.and_eq_true, Bool.or_eq_true, beq_iff_eq, Bool.not_eq_true',
      string_length_eq_zero]
  · intro s sub
    exact containsChars_iff s.toList sub.toList

/-! ## The scan: `Analyze` over the pagination driver -/

theorem processObjects_append (a : Analysis) (xs ys : List Object) :
    processObjects a (xs ++ ys)
      = (processObjects a xs).bind (fun a1 => processObjects a1 ys) := by
  induction xs generalizing a with
  | nil => rfl
  | cons o rest ih =>
    simp only [List.cons_append, processObjects]
    cases processObject a o with
    | none => rfl
    | some a1 => exact ih a1

/-- A listing that succeeds with at least one page: every object of every page
is processed, then `completeAnalysis` runs once, on the last page. -/
theorem deliverPages_success (b : Bucket) (a : Analysis) (page : List Object)
    (pages : List (List Object)) (hA : b.Analysis = some a) :
    deliverPages handleListObjectOutput b (page :: pages) none
      = (processObjects a (page :: pages).flatten).bind (fun a1 =>
          (completeAnalysis { b with Analysis := some a1 }).map (fun b2 => (b2, none))) := by
  induction pages generalizing b a page with
  | nil =>
    simp only [deliverPages, List.isEmpty_nil, Option.isNone_none, Bool.and_self,
      List.flatten_cons, List.flatten_nil, List.append_nil]
    rw [handleListObjectOutput_eq b a page true hA]
    cases processObjects a page with
    | none => rfl
    | some a1 =>
      simp only [if_true, Option.some_bind]
      cases completeAnalysis { b with Analysis := some a1 } <;> rfl
  | cons q rest ih =>
    rw [deliverPages]
    simp only [List.isEmpty_cons, Bool.false_and]
    rw [handleListObjectOutput_eq b a page false hA, List.flatten_cons, processObjects_append]
    cases processObjects a page with
    | none => rfl
    | some a1 =>
      simp only [Bool.false_eq_true, if_false, Option.some_bind]
      exact ih { b with Analysis := some a1 } a1 q rfl

/-- A listing that fails after some pages: every object of these pages is
processed, `completeAnalysis` does not run, and the error is returned. -/
theorem deliverPages_failure (b : Bucket) (a : Analysis) (pages : List (List Object))
    (e : GoError) (hA : b.Analysis = some a) :
    deliverPages handleListObjectOutput b pages (some e)
      = (processObjects a pages.flatten).map (fun a1 =>
          ({ b with Analysis := some a1 }, some e)) := by
  induction pages generalizing b a with
  | nil =>
    cases b
    simp only at hA
    subst hA
    rfl
  | cons q rest ih =>
    rw [deliverPages]
    simp only [Option.isNone_some, Bool.and_false]
    rw [handleListObjectOutput_eq b a q false hA, List.flatten_cons, processObjects_append]
    cases processObjects a q with
    | none => rfl
    | some a1 =>
      simp only [Bool.false_eq_true, if_false, Option.some_bind]
      exact ih { b with Analysis := some a1 } a1 rfl

/-- The driver on a listing that succeeds with at least one page. -/
theorem listObjectsPages_success (b : Bucket) (a : Analysis) (page : List Object)
    (pages : List (List Object)) (hA : b.Analysis = some a) :
    ListObjectsPages handleListObjectOutput b (page :: pages) none
      = (processObjects a (page :: pages).flatten).bind (fun a1 =>
          (completeAnalysis { b with Analysis := some a1 }).map (fun b2 => (b2, none))) :=
  deliverPages_success b a page pages hA

/-- The driver on a listing that fails after some pages. -/
theorem listObjectsPages_failure (b : Bucket) (a : Analysis) (pages : List (List Object))
    (e : GoError) (hA : b.Analysis = some a) :
    ListObjectsPages handleListObjectOutput b pages (some e)
      = (processObjects a pages.flatten).map (fun a1 =>
          ({ b with Analysis := some a1 }, some e)) := by
  have h : ListObjectsPages handleListObjectOutput b pages (some e)
      = deliverPages handleListObjectOutput b pages (some e) := by
    cases pages <;> rfl
  rw [h]
  exact deliverPages_failure b a pages e hA

/-- The driver on any listing that succeeds: every object of every page is
processed, then `completeAnalysis` runs once.  The listing of an empty bucket
is one page without objects. -/
theorem listObjectsPages_success_all (b : Bucket) (a : Analysis)
    (pages : List (List Object)) (hA : b.Analysis = some a) :
    ListObjectsPages handleListObjectOutput b pages none
      = (processObjects a pages.flatten).bind (fun a1 =>
          (completeAnalysis { b with Analysis := some a1 }).map (fun b2 => (b2, none))) := by
  cases pages with
  | nil => exact deliverPages_success b a [] [] hA
  | cons page rest => exact deliverPages_success b a page rest hA

/-! ## Claims on the scan -/

/-- A scan whose listing succeeds (objects of 64-bit sizes, at most `maxInt`
of them) with a display count other than `minInt`: the run of `Analyze` is
`processObject` applied to every object of every page in order, followed by
one run of `completeAnalysis`; it returns, and exactly one message is added to
the channel, the finalized `Analysis` of all these objects. -/
theorem analyze_success_run (b : Bucket) (ch : List Analysis) (n : Int)
    (pages : List (List Object))
    (hsz : ∀ o ∈ pages.flatten, o.Size ≤ maxInt)
    (hlen : (pages.flatten.length : Int) ≤ maxInt)
    (hlo : minInt < n) (hhi : n ≤ maxInt) :
    ∃ a s, processObjects (newAnalysis b n) pages.flatten = some a
      ∧ onlyN (sortStrings a.Objects) n = some s
      ∧ Analyze b ch n ⟨none, pages, none⟩
          = completeAnalysis { b with Analysis := some a, AnalysisChannel := ch }
      ∧ Analyze b ch n ⟨none, pages, none⟩
          = some { b with Analysis := some { a with Objects := s },
                          AnalysisChannel := ch ++ [{ a with Objects := s }] } := by
  obtain ⟨a, ha⟩ := processObjects_isSome (newAnalysis b n) _ hsz
  obtain ⟨-, -, cD, cO⟩ := processObjects_counters (newAnalysis b n) a _
    (show wrap64 0 = 0 by decide) (show wrap64 0 = 0 by decide) ha
  have hD : a.DisplayObjectCount = n := cD
  have hl : ((sortStrings a.Objects).length : Int) ≤ maxInt := by
    rw [sortStrings_length, cO]
    simpa [newAnalysis] using hlen
  obtain ⟨s, hs⟩ := onlyN_isSome (sortStrings a.Objects) n hl hlo hhi
  have hrun : Analyze b ch n ⟨none, pages, none⟩
      = completeAnalysis { b with Analysis := some a, AnalysisChannel := ch } := by
    unfold Analyze
    simp only
    rw [listObjectsPages_success_all _ (newAnalysis b n) pages rfl, ha]
    simp only [Option.some_bind]
    cases completeAnalysis { b with Analysis := some a, AnalysisChannel := ch } <;> rfl
  refine ⟨a, s, ha, hs, hrun, ?_⟩
  rw [hrun, completeAnalysis_eq _ a rfl, hD, hs]
  rfl

set_option maxRecDepth 100000 in
/-- C8: with the display count `-2^63` a scan whose listing succeeds never
finalizes: `onlyN` panics inside `completeAnalysis` before the send, so no
`Analysis` is sent and `Analyze` does not return, here for the two pages of
one object each of the test `TestAnalysisCallback` and for an empty bucket
(one page without objects).  With every other display count, for every
listing that succeeds, of zero or more objects (64-bit sizes, at most `maxInt`
objects), the run of `Analyze` is `processObject` applied to every object of
every page in order followed by one run of `completeAnalysis`, and exactly one
message is added to the channel, the finalized `Analysis`; for an empty bucket
and the display count 1 it is the empty `Analysis`. -/
theorem analyze_completes_once_except_at_minInt :
    Analyze ⟨"Test", Time.zero, none, []⟩ [] (-9223372036854775808)
        ⟨none, [[⟨"key1", ⟨63082281600, 0, 0⟩, 1024, "ownerid1"⟩],
          [⟨"key2", ⟨63082281700, 0, 0⟩, 1024, "ownerid2"⟩]], none⟩ = none
    ∧ Analyze ⟨"Test", Time.zero, none, []⟩ [] (-9223372036854775808) ⟨none, [[]], none⟩
        = none
    ∧ (Analyze ⟨"Test", Time.zero, none, []⟩ [] 1 ⟨none, [[]], none⟩).map Bucket.AnalysisChannel
        = some [newAnalysis ⟨"Test", Time.zero, none, []⟩ 1]
    ∧ (∀ (b : Bucket) (ch : List Analysis) (n : Int) (pages : List (List Object)),
        (∀ o ∈ pages.flatten, o.Size ≤ maxInt) →
        (pages.flatten.length : Int) ≤ maxInt →
        minInt < n → n ≤ maxInt →
        ∃ a s, processObjects (newAnalysis b n) pages.flatten = some a
          ∧ onlyN (sortStrings a.Objects) n = some s
          ∧ Analyze b ch n ⟨none, pages, none⟩
              = completeAnalysis { b with Analysis := some a, AnalysisChannel := ch }
          ∧ Analyze b ch n ⟨none, pages, none⟩
              = some { b with Analysis := some { a with Objects := s },
                              AnalysisChannel := ch ++ [{ a with Objects := s }] }) := by
  refine ⟨by decide, by decide, by decide, ?_⟩
  intro b ch n pages hsz hlen hlo hhi
  exact analyze_success_run b ch n pages hsz hlen hlo hhi

set_option maxRecDepth 100000 in
/-- C9, counterexample: the listing delivers one page with one object of 1024
bytes and then fails.  The one `Analysis` sent on the channel carries the
error and `TotalCount = 1`, `TotalSize = 1024`, one owner entry, the timestamp
of the object and its descriptor, not the values of a fresh `Analysis`. -/
theorem partial_aggregate_counterexample :
    (Analyze ⟨"b", Time.zero, none, []⟩ [] (-5)
        ⟨none, [[⟨"key1", ⟨63082281600, 0, 0⟩, 1024, "ownerid1"⟩]],
          some ⟨"RequestError", .ok "\x7b\x7d"⟩⟩).map Bucket.AnalysisChannel
      = some [⟨"b", Time.zero, ⟨63082281600, 0, 0⟩, 1024, -5, 1, [("ownerid1", 1024)],
          ["2000-01-01T00:00:00Z 1.0kB key1"], some ⟨"RequestError", .ok "\x7b\x7d"⟩⟩]
    ∧ (newAnalysis ⟨"b", Time.zero, none, []⟩ (-5)).TotalCount = 0
    ∧ (newAnalysis ⟨"b", Time.zero, none, []⟩ (-5)).TotalSize = 0
    ∧ (newAnalysis ⟨"b", Time.zero, none, []⟩ (-5)).SizePerOwnerID = []
    ∧ (newAnalysis ⟨"b", Time.zero, none, []⟩ (-5)).LastModified = Time.zero
    ∧ (newAnalysis ⟨"b", Time.zero, none, []⟩ (-5)).Objects = [] := by
  refine ⟨by decide, rfl, rfl, rfl, rfl, rfl⟩

/-- C9, amended: if the paged listing fails after some pages (objects of
64-bit sizes), `Analyze` returns and exactly one `Analysis` is added to the
channel: the one accumulated by `processObject` over every object of the
delivered pages, with `Error` set and nothing else changed; its counters,
owner map and watermark are those of the objects processed so far and its
`Objects` is the whole working list, one descriptor per object, neither sorted
nor cut.  It is the fresh `Analysis` with only `Error` set when no object was
processed before the failure; when objects were processed (at most `maxInt` of
them) its `TotalCount` is not that of a fresh one.  If the region lookup
`s3Service` fails, the one `Analysis` sent is the fresh one with only `Error`
set. -/
theorem analyze_error_reports_accumulated (b : Bucket) (ch : List Analysis) (n : Int)
    (pages : List (List Object)) (e : GoError)
    (hsz : ∀ o ∈ pages.flatten, o.Size ≤ maxInt) :
    (∃ a, processObjects (newAnalysis b n) pages.flatten = some a
      ∧ Analyze b ch n ⟨none, pages, some e⟩
          = some { b with Analysis := some { a with Error := some e },
                          AnalysisChannel := ch ++ [{ a with Error := some e }] }
      ∧ a.TotalCount = wrap64 (pages.flatten.length : Int)
      ∧ a.TotalSize = wrap64 (sumSizes pages.flatten)
      ∧ wrap64 (sumValues a.SizePerOwnerID) = a.TotalSize
      ∧ a.Objects.length = pages.flatten.length
      ∧ (pages.flatten = [] → a = newAnalysis b n)
      ∧ (pages.flatten ≠ [] → (pages.flatten.length : Int) ≤ maxInt →
          a.TotalCount ≠ (newAnalysis b n).TotalCount))
    ∧ (∀ listErr, Analyze b ch n ⟨some e, pages, listErr⟩
          = some { b with Analysis := some { newAnalysis b n with Error := some e },
                          AnalysisChannel := ch ++ [{ newAnalysis b n with Error := some e }] }) := by
  constructor
  · obtain ⟨a, ha⟩ := processObjects_isSome (newAnalysis b n) _ hsz
    obtain ⟨cT, cC, -, cO⟩ := processObjects_counters (newAnalysis b n) a _
      (show wrap64 0 = 0 by decide) (show wrap64 0 = 0 by decide) ha
    have hw := processObjects_owner_sum (newAnalysis b n) a _ (show wrap64 0 = 0 by decide) ha
    have hC : a.TotalCount = wrap64 (pages.flatten.length : Int) := by
      rw [cC]; simp [newAnalysis]
    refine ⟨a, ha, ?_, hC, ?_, hw, ?_, ?_, ?_⟩
    · unfold Analyze
      simp only
      rw [listObjectsPages_failure _ (newAnalysis b n) pages e rfl, ha]
      rfl
    · rw [cT]; simp [newAnalysis]
    · rw [cO]; simp [newAnalysis]
    · intro hnil
      rw [hnil] at ha
      simp only [processObjects, Option.some.injEq] at ha
      exact ha.symm
    · intro hne hlen
      rw [hC]
      have hpos : 0 < pages.flatten.length := List.length_pos.mpr hne
      unfold maxInt at hlen
      rw [wrap64_of_range (by omega) (by omega)]
      show ((pages.flatten.length : Nat) : Int) ≠ 0
      omega
  · intro listErr
    rfl

/-- C9 at a listing that fails after one page of one object. -/
theorem analyze_error_reports_accumulated_witness :
    ∃ a, processObjects (newAnalysis ⟨"b", Time.zero, none, []⟩ (-5))
          ([[⟨"key1", ⟨63082281600, 0, 0⟩, 1024, "ownerid1"⟩]] : List (List Object)).flatten
          = some a
      ∧ Analyze ⟨"b", Time.zero, none, []⟩ [] (-5)
          ⟨none, [[⟨"key1", ⟨63082281600, 0, 0⟩, 1024, "ownerid1"⟩]],
            some ⟨"RequestError", .ok "\x7b\x7d"⟩⟩
          = some { (⟨"b", Time.zero, none, []⟩ : Bucket) with
                   Analysis := some { a with Error := some ⟨"RequestError", .ok "\x7b\x7d"⟩ },
                   AnalysisChannel :=
                     [] ++ [{ a with Error := some ⟨"RequestError", .ok "\x7b\x7d"⟩ }] } := by
  obtain ⟨a, h1, h2, -⟩ :=
    (analyze_error_reports_accumulated ⟨"b", Time.zero, none, []⟩ [] (-5)
      [[⟨"key1", ⟨63082281600, 0, 0⟩, 1024, "ownerid1"⟩]]
      ⟨"RequestError", .ok "\x7b\x7d"⟩ (by decide)).1
  exact ⟨a, h1, h2⟩

/-! ## Rendering -/

theorem string_append_cancel (x j k c : String) : x ++ j ++ c = x ++ k ++ c ↔ j = k := by
  constructor
  · intro h
    have h' := congrArg String.data h
    simp only [String.data_append, List.append_assoc, List.append_cancel_left_eq,
      List.append_cancel_right_eq] at h'
    exact String.ext h'
  · intro h
    rw [h]

/-- The text format does not read the field `Error`, in whatever order the
owner map is visited. -/
theorem stringVisiting_ignores_error (a : Analysis) (err : Option GoError) (visit : OwnerMap) :
    Analysis.StringVisiting { a with Error := err } visit = a.StringVisiting visit := rfl

/-- The structured format shows the field `Error`: when both timestamps
encode and the error value encodes to `j`, the object ends with `j` where the
object of the same `Analysis` without error ends with `null`. -/
theorem json_shows_error (a : Analysis) (e : GoError) (created modified j : String)
    (hc : a.CreationDate.MarshalJSON = some created)
    (hm : a.LastModified.MarshalJSON = some modified) (hj : e.json = .ok j) :
    Analysis.JSON { a with Error := some e }
        = .encoded (a.jsonFields created modified ++ j ++ "\x7d")
    ∧ Analysis.JSON { a with Error := none }
        = .encoded (a.jsonFields created modified ++ "null" ++ "\x7d") := by
  constructor
  · unfold Analysis.JSON Analysis.marshal
    simp only [hc, hm, jsonError, hj]
    rfl
  · unfold Analysis.JSON Analysis.marshal
    simp only [hc, hm, jsonError]
    rfl

set_option maxRecDepth 100000 in
/-- C10: the text format drops the error.  A scan whose region lookup fails
with `AccessDenied` sends an `Analysis` with `Error` set; its `String()` is,
character for character, the text of the same `Analysis` with `Error` nil, the
report of an empty bucket, while its `JSON()` ends with `"Error":{}` where the
other ends with `"Error":null`.  In general `String()` of an `Analysis` with
an error is the text of the same `Analysis` without it, in whatever order the
owner map is visited; `JSON()`, when both timestamps encode, differs from the
form without the error exactly when the error value does not encode as
`null`. -/
theorem string_drops_error :
    (Analyze ⟨"b", ⟨63082281600, 0, 0⟩, none, []⟩ [] 5
        ⟨some ⟨"AccessDenied: Access Denied", .ok "\x7b\x7d"⟩, [], none⟩).map
          Bucket.AnalysisChannel
      = some [⟨"b", ⟨63082281600, 0, 0⟩, Time.zero, 0, 5, 0, [], [],
          some ⟨"AccessDenied: Access Denied", .ok "\x7b\x7d"⟩⟩]
    ∧ Analysis.String ⟨"b", ⟨63082281600, 0, 0⟩, Time.zero, 0, 5, 0, [], [],
          some ⟨"AccessDenied: Access Denied", .ok "\x7b\x7d"⟩⟩
        = some ("Name: b\nObjectCount: 0\nTotalSize: 0B\nCreationDate: 2000-01-01T00:00:00Z\n"
            ++ "LastModified: 0001-01-01T00:00:00Z\nObjects:\nTotalSizePerAccount:\n")
    ∧ Analysis.String ⟨"b", ⟨63082281600, 0, 0⟩, Time.zero, 0, 5, 0, [], [], none⟩
        = some ("Name: b\nObjectCount: 0\nTotalSize: 0B\nCreationDate: 2000-01-01T00:00:00Z\n"
            ++ "LastModified: 0001-01-01T00:00:00Z\nObjects:\nTotalSizePerAccount:\n")
    ∧ Analysis.JSON ⟨"b", ⟨63082281600, 0, 0⟩, Time.zero, 0, 5, 0, [], [],
          some ⟨"AccessDenied: Access Denied", .ok "\x7b\x7d"⟩⟩
        = .encoded ("\x7b\"Name\":\"b\",\"CreationDate\":\"2000-01-01T00:00:00Z\","
            ++ "\"LastModified\":\"0001-01-01T00:00:00Z\",\"TotalSize\":0,"
            ++ "\"DisplayObjectCount\":5,\"TotalCount\":0,\"SizePerOwnerID\":\x7b\x7d,"
            ++ "\"Objects\":[],\"Error\":\x7b\x7d\x7d")
    ∧ Analysis.JSON ⟨"b", ⟨63082281600, 0, 0⟩, Time.zero, 0, 5, 0, [], [], none⟩
        = .encoded ("\x7b\"Name\":\"b\",\"CreationDate\":\"2000-01-01T00:00:00Z\","
            ++ "\"LastModified\":\"0001-01-01T00:00:00Z\",\"TotalSize\":0,"
            ++ "\"DisplayObjectCount\":5,\"TotalCount\":0,\"SizePerOwnerID\":\x7b\x7d,"
            ++ "\"Objects\":[],\"Error\":null\x7d")
    ∧ (∀ (a : Analysis) (e : GoError) (visit : OwnerMap),
        Analysis.StringVisiting { a with Error := some e } visit
          = Analysis.StringVisiting { a with Error := none } visit)
    ∧ (∀ (a : Analysis) (e : GoError) (created modified j : String),
        a.CreationDate.MarshalJSON = some created →
        a.LastModified.MarshalJSON = some modified → e.json = .ok j →
        (Analysis.JSON { a with Error := some e } ≠ Analysis.JSON { a with Error := none }
          ↔ j ≠ "null")) := by
  refine ⟨by decide, by decide, by decide, by decide, by decide, ?_, ?_⟩
  · intro a e visit
    rfl
  · intro a e created modified j hc hm hj
    obtain ⟨h1, h2⟩ := json_shows_error a e created modified j hc hm hj
    rw [h1, h2]
    constructor
    · intro h hjn
      exact h (by rw [hjn])
    · intro h heq
      simp only [JSONText.encoded.injEq] at heq
      exact h ((string_append_cancel _ _ _ _).mp heq)

/-! ## `byteCountToHuman`: the loop and the rounding -/

/-- The loop of `byteCountToHuman` on a 64-bit count of at least 1000: with
any fuel of at least 6 it ends by its own test, with `div` the largest power
of 1000 that is at most `b` and `exp` the position of its unit. -/
theorem humanLoop_result (b : Int) (hlo : 1000 ≤ b) (hhi : b ≤ maxInt) (fuel : Nat)
    (hfuel : 6 ≤ fuel) :
    (b < 10 ^ 6 ∧ humanLoop fuel (b / 1000) 1000 0 = (10 ^ 3, 0))
    ∨ (10 ^ 6 ≤ b ∧ b < 10 ^ 9 ∧ humanLoop fuel (b / 1000) 1000 0 = (10 ^ 6, 1))
    ∨ (10 ^ 9 ≤ b ∧ b < 10 ^ 12 ∧ humanLoop fuel (b / 1000) 1000 0 = (10 ^ 9, 2))
    ∨ (10 ^ 12 ≤ b ∧ b < 10 ^ 15 ∧ humanLoop fuel (b / 1000) 1000 0 = (10 ^ 12, 3))
    ∨ (10 ^ 15 ≤ b ∧ b < 10 ^ 18 ∧ humanLoop fuel (b / 1000) 1000 0 = (10 ^ 15, 4))
    ∨ (10 ^ 18 ≤ b ∧ humanLoop fuel (b / 1000) 1000 0 = (10 ^ 18, 5)) := by
  unfold maxInt at hhi
  obtain ⟨k, hk⟩ : ∃ k, fuel = k + 6 := ⟨fuel - 6, by omega⟩
  rw [hk]
  have w1 : wrap64 (0 + 1) = 1 := by decide
  have w2 : wrap64 (1 + 1) = 2 := by decide
  have w3 : wrap64 (2 + 1) = 3 := by decide
  have w4 : wrap64 (3 + 1) = 4 := by decide
  have w5 : wrap64 (4 + 1) = 5 := by decide
  have d1 : wrap64 (1000 * 1000) = 1000000 := by decide
  have d2 : wrap64 (1000000 * 1000) = 1000000000 := by decide
  have d3 : wrap64 (1000000000 * 1000) = 1000000000000 := by decide
  have d4 : wrap64 (1000000000000 * 1000) = 1000000000000000 := by decide
  have d5 : wrap64 (1000000000000000 * 1000) = 1000000000000000000 := by decide
  simp only [humanLoop, w1, w2, w3, w4, w5, d1, d2, d3, d4, d5]
  split_ifs <;> norm_num <;> omega

theorem roundHalfEven_bounds (n d : Nat) (hd : 0 < d) :
    2 * (roundHalfEven n d * d) ≤ 2 * n + d ∧ 2 * n ≤ 2 * (roundHalfEven n d * d) + d := by
  have hdm : n / d * d + n % d = n := Nat.div_add_mod' n d
  have hlt : n % d < d := Nat.mod_lt n hd
  have hsucc : (n / d + 1) * d = n / d * d + d := by ring
  unfold roundHalfEven
  simp only
  split_ifs <;> omega

theorem pow_log2Fuel_le (fuel n : Nat) (hn : 1 ≤ n) : 2 ^ log2Fuel fuel n ≤ n := by
  induction fuel generalizing n with
  | zero => simpa [log2Fuel] using hn
  | succ f ih =>
    simp only [log2Fuel]
    split_ifs with h
    · simpa using hn
    · have h2 : 1 ≤ n / 2 := by omega
      have := ih (n / 2) h2
      rw [pow_succ]
      omega

theorem log2Fuel_le (fuel n k : Nat) (hn : n < 2 ^ (k + 1)) : log2Fuel fuel n ≤ k := by
  induction fuel generalizing n k with
  | zero => simp [log2Fuel]
  | succ f ih =>
    simp only [log2Fuel]
    split_ifs with h
    · exact Nat.zero_le k
    · cases k with
      | zero => simp at hn; omega
      | succ k =>
        have hh : n / 2 < 2 ^ (k + 1) := by
          rw [pow_succ] at hn
          omega
        have := ih (n / 2) k hh
        omega

/-- The conversion `float64(b)` errs by at most `b / 2 ^ 53`. -/
theorem toFloat64_error (b : Nat) :
    2 ^ 53 * toFloat64 b ≤ 2 ^ 53 * b + b ∧ 2 ^ 53 * b ≤ 2 ^ 53 * toFloat64 b + b := by
  unfold toFloat64
  split_ifs with h
  · omega
  · simp only
    have hb : 2 ^ 53 ≤ b := by omega
    have hpos : 0 < 2 ^ (log2 b - 52) := by positivity
    obtain ⟨r1, r2⟩ := roundHalfEven_bounds b (2 ^ (log2 b - 52)) hpos
    have hq : 2 ^ (log2 b - 52) * 2 ^ 52 ≤ b := by
      by_cases hl : 52 ≤ log2 b
      · rw [← pow_add, Nat.sub_add_cancel hl]
        exact pow_log2Fuel_le b b (by omega)
      · have : log2 b - 52 = 0 := by omega
        rw [this]
        omega
    generalize roundHalfEven b (2 ^ (log2 b - 52)) * 2 ^ (log2 b - 52) = fb at r1 r2
    generalize 2 ^ (log2 b - 52) = q at hq r1 r2
    omega

/-- The arithmetic of the two roundings: a number `T` of tenths obtained from
`b / d` through a 53-bit conversion, a 53-bit quotient with scale `P` and a
rounding to tenths differs from `10 * b / d` by at most `1/2 + 1/(2 * 10 ^ 9)`. -/
theorem tenths_algebra (T m fb b d P : Int) (hd : 0 < d) (hP : 2 ^ 43 ≤ P)
    (hb2 : b < 1000 * d) (hb0 : 0 ≤ b)
    (hT1 : 2 * (T * P) ≤ 2 * (m * 10) + P) (hT2 : 2 * (m * 10) ≤ 2 * (T * P) + P)
    (hm1 : 2 * (m * d) ≤ 2 * (fb * P) + d) (hm2 : 2 * (fb * P) ≤ 2 * (m * d) + d)
    (hf1 : 2 ^ 53 * fb ≤ 2 ^ 53 * b + b) (hf2 : 2 ^ 53 * b ≤ 2 ^ 53 * fb + b) :
    2 * 10 ^ 9 * |T * d - 10 * b| ≤ (10 ^ 9 + 1) * d := by
  have hP0 : 0 < P := by linarith
  have p1 := mul_le_mul_of_nonneg_right hT1 (le_of_lt hd)
  have p2 := mul_le_mul_of_nonneg_right hT2 (le_of_lt hd)
  have p3 := mul_le_mul_of_nonneg_right hf1 (le_of_lt hP0)
  have p4 := mul_le_mul_of_nonneg_right hf2 (le_of_lt hP0)
  have p5 := mul_le_mul_of_nonneg_right (le_of_lt hb2) (le_of_lt hP0)
  have p6 := mul_le_mul_of_nonneg_right hP (le_of_lt hd)
  have p7 := mul_nonneg hb0 (le_of_lt hP0)
  have up : 2 * 10 ^ 9 * (T * d - 10 * b) * P ≤ (10 ^ 9 + 1) * d * P := by
    nlinarith [p1, p3, p5, p6, p7, hm1]
  have lo : -((10 ^ 9 + 1) * d * P) ≤ 2 * 10 ^ 9 * (T * d - 10 * b) * P := by
    nlinarith [p2, p4, p5, p6, p7, hm2]
  have up' := le_of_mul_le_mul_right up hP0
  have lo' : -((10 ^ 9 + 1) * d) ≤ 2 * 10 ^ 9 * (T * d - 10 * b) := by
    have : (-((10 ^ 9 + 1) * d)) * P ≤ 2 * 10 ^ 9 * (T * d - 10 * b) * P := by linarith
    exact le_of_mul_le_mul_right this hP0
  rcases abs_cases (T * d - 10 * b) with ⟨h, _⟩ | ⟨h, _⟩ <;> rw [h] <;> linarith

/-- The number of tenths printed for `b` with the divisor `d`, an exactly
representable number with `d ≤ b < 1000 * d`, is `10 * b / d` rounded to an
integer up to the error of the 53-bit arithmetic. -/
theorem quotientTenths_bound (b d : Nat) (hfd : toFloat64 d = d) (hd : 0 < d)
    (hb2 : b < 1000 * d) :
    2 * 10 ^ 9 * |((quotientTenths b d : Nat) : Int) * d - 10 * b| ≤ (10 ^ 9 + 1) * (d : Int) := by
  obtain ⟨f1, f2⟩ := toFloat64_error b
  have hlt : toFloat64 b / d < 2 ^ (9 + 1) := by
    rw [Nat.div_lt_iff_lt_mul hd]
    have : 2 ^ 53 * toFloat64 b < 2 ^ 53 * (2 ^ (9 + 1) * d) := by omega
    exact Nat.lt_of_mul_lt_mul_left this
  have he : log2 (toFloat64 b / d) ≤ 9 := log2Fuel_le _ _ 9 hlt
  have hP : 2 ^ 43 ≤ 2 ^ (52 - log2 (toFloat64 b / d)) :=
    Nat.pow_le_pow_right (by norm_num) (by omega)
  have hPpos : 0 < 2 ^ (52 - log2 (toFloat64 b / d)) := by positivity
  obtain ⟨m1, m2⟩ := roundHalfEven_bounds
    (toFloat64 b * 2 ^ (52 - log2 (toFloat64 b / d))) d hd
  obtain ⟨t1, t2⟩ := roundHalfEven_bounds
    (roundHalfEven (toFloat64 b * 2 ^ (52 - log2 (toFloat64 b / d))) d * 10)
    (2 ^ (52 - log2 (toFloat64 b / d))) hPpos
  have hT : quotientTenths b d
      = roundHalfEven
          (roundHalfEven (toFloat64 b * 2 ^ (52 - log2 (toFloat64 b / d))) d * 10)
          (2 ^ (52 - log2 (toFloat64 b / d))) := by
    unfold quotientTenths
    simp only [hfd]
  rw [hT]
  generalize roundHalfEven
      (roundHalfEven (toFloat64 b * 2 ^ (52 - log2 (toFloat64 b / d))) d * 10)
      (2 ^ (52 - log2 (toFloat64 b / d))) = T at t1 t2
  generalize roundHalfEven (toFloat64 b * 2 ^ (52 - log2 (toFloat64 b / d))) d = m
    at m1 m2 t1 t2
  generalize 2 ^ (52 - log2 (toFloat64 b / d)) = P at hP m1 m2 t1 t2
  generalize toFloat64 b = fb at f1 f2 m1 m2
  exact tenths_algebra (T : Int) m fb b d P (by exact_mod_cast hd) (by exact_mod_cast hP)
    (by exact_mod_cast hb2) (by positivity)
    (by exact_mod_cast t1) (by exact_mod_cast t2) (by exact_mod_cast m1)
    (by exact_mod_cast m2) (by exact_mod_cast f1) (by exact_mod_cast f2)

theorem fmtNat_digit_length (n : Nat) (hn : n < 10) : (fmtNat n).length = 1 := by
  interval_cases n <;> decide

theorem fmtQuotient1_eq (b d : Nat) :
    fmtQuotient1 b d
      = fmtNat (quotientTenths b d / 10) ++ "." ++ fmtNat (quotientTenths b d % 10) := rfl

/-- What `byteCountToHuman` returns on a count of at least 1000, given the
result `(d, e)` of its loop and the unit character at index `e`. -/
theorem byteCountToHuman_of_loop (b : Int) (hb : 1000 ≤ b) (d : Nat) (e : Int) (c : Char)
    (u : String) (hr : humanLoop b.toNat (b / 1000) 1000 0 = ((d : Int), e))
    (hc : unitChar e = some c) (hu : c.toString ++ "B" = u) :
    byteCountToHuman b
      = some (fmtNat (quotientTenths b.toNat d / 10) ++ "."
          ++ fmtNat (quotientTenths b.toNat d % 10) ++ u) := by
  unfold byteCountToHuman
  rw [if_neg (by omega)]
  simp only [hr, hc, Int.toNat_ofNat, fmtQuotient1_eq]
  rw [← hu, String.append_assoc _ c.toString "B"]

/-- Every case of `byteCountToHuman` on a count of at least 1000: the power
`k`, the unit and the bound on the printed tenths. -/
theorem byteCountToHuman_case (b : Int) (hb : 1000 ≤ b) (k : Nat) (e : Int) (c : Char)
    (u : String)
    (hr : humanLoop b.toNat (b / 1000) 1000 0 = (((1000 ^ k : Nat) : Int), e))
    (hc : unitChar e = some c) (hu : c.toString ++ "B" = u)
    (hf : toFloat64 (1000 ^ k) = 1000 ^ k) (hb2 : b < 1000 ^ (k + 1)) :
    byteCountToHuman b
        = some (fmtNat (quotientTenths b.toNat (1000 ^ k) / 10) ++ "."
            ++ fmtNat (quotientTenths b.toNat (1000 ^ k) % 10) ++ u)
      ∧ (fmtNat (quotientTenths b.toNat (1000 ^ k) % 10)).length = 1
      ∧ 2 * 10 ^ 9 * |((quotientTenths b.toNat (1000 ^ k) : Nat) : Int) * 1000 ^ k - 10 * b|
          ≤ (10 ^ 9 + 1) * 1000 ^ k := by
  refine ⟨byteCountToHuman_of_loop b hb _ e c u hr hc hu,
    fmtNat_digit_length _ (Nat.mod_lt _ (by norm_num)), ?_⟩
  have hbn : ((b.toNat : Nat) : Int) = b := Int.toNat_of_nonneg (by omega)
  have hlt : b.toNat < 1000 * 1000 ^ k := by
    have : ((b.toNat : Nat) : Int) < ((1000 * 1000 ^ k : Nat) : Int) := by
      rw [hbn]
      push_cast
      rw [pow_succ] at hb2
      linarith
    exact_mod_cast this
  have := quotientTenths_bound b.toNat (1000 ^ k) hf (by positivity) hlt
  rw [hbn] at this
  exact_mod_cast this

theorem toFloat64_pow1000 :
    toFloat64 (1000 ^ 1) = 1000 ^ 1 ∧ toFloat64 (1000 ^ 2) = 1000 ^ 2
    ∧ toFloat64 (1000 ^ 3) = 1000 ^ 3 ∧ toFloat64 (1000 ^ 4) = 1000 ^ 4
    ∧ toFloat64 (1000 ^ 5) = 1000 ^ 5 ∧ toFloat64 (1000 ^ 6) = 1000 ^ 6 := by
  refine ⟨by decide, by decide, by decide, by decide, by decide, by decide⟩

/-! ## Claims on `byteCountToHuman` -/

/-- An integer number of tenths within the rounding bound of a quantity is the
number `N` whenever the quantity is nearer to `N` than the bound leaves
room for a second candidate. -/
theorem tenths_nearest (T N d x : Int) (hd : 0 < d)
    (h1 : 2 * 10 ^ 9 * |T * d - x| ≤ (10 ^ 9 + 1) * d)
    (h2 : 2 * 10 ^ 9 * |N * d - x| < (10 ^ 9 - 1) * d) : T = N := by
  have a1 := abs_le.mp (show |T * d - x| ≤ |T * d - x| from le_refl _)
  have a2 := abs_le.mp (show |N * d - x| ≤ |N * d - x| from le_refl _)
  rcases lt_trichotomy T N with h | h | h
  · exfalso
    have : (T + 1) * d ≤ N * d := Int.mul_le_mul_of_nonneg_right (by omega) (le_of_lt hd)
    nlinarith [a1.1, a1.2, a2.1, a2.2]
  · exact h
  · exfalso
    have : (N + 1) * d ≤ T * d := Int.mul_le_mul_of_nonneg_right (by omega) (le_of_lt hd)
    nlinarith [a1.1, a1.2, a2.1, a2.2]

/-- The two ranges of `byteCountToHuman` on a 64-bit count: below 1000 the
numeral and `B`; from 1000 on the tenths `quotientTenths` computes, the unit
and the bound on the tenths. -/
theorem byteCountToHuman_tenths (b : Int) (hhi : b ≤ maxInt) :
    (0 ≤ b → b < 1000 → byteCountToHuman b = some (fmtNat b.toNat ++ "B"))
    ∧ (1000 ≤ b → ∃ k u, 1 ≤ k ∧ k ≤ 6 ∧ (1000 : Int) ^ k ≤ b ∧ b < 1000 ^ (k + 1)
        ∧ ["kB", "MB", "GB", "TB", "PB", "EB"].get? (k - 1) = some u
        ∧ byteCountToHuman b
            = some (fmtNat (quotientTenths b.toNat (1000 ^ k) / 10) ++ "."
                ++ fmtNat (quotientTenths b.toNat (1000 ^ k) % 10) ++ u)
        ∧ (fmtNat (quotientTenths b.toNat (1000 ^ k) % 10)).length = 1
        ∧ 2 * 10 ^ 9 * |((quotientTenths b.toNat (1000 ^ k) : Nat) : Int) * 1000 ^ k - 10 * b|
            ≤ (10 ^ 9 + 1) * 1000 ^ k) := by
  refine ⟨?_, ?_⟩
  · intro h0 h1
    unfold byteCountToHuman fmtInt
    rw [if_pos h1, if_neg (by omega)]
    congr 3
    omega
  · intro hb
    obtain ⟨f1, f2, f3, f4, f5, f6⟩ := toFloat64_pow1000
    have hmax : b < 1000 ^ (6 + 1) := by unfold maxInt at hhi; norm_num; omega
    rcases humanLoop_result b hb hhi b.toNat (by omega) with
      ⟨h2, hr⟩ | ⟨h1, h2, hr⟩ | ⟨h1, h2, hr⟩ | ⟨h1, h2, hr⟩ | ⟨h1, h2, hr⟩ | ⟨h1, hr⟩
    · exact ⟨1, "kB", le_refl 1, by norm_num, by norm_num; omega, by norm_num; omega, rfl,
        byteCountToHuman_case b hb 1 0 'k' "kB" (by rw [hr]; norm_num) (by decide)
          (by decide) f1 (by norm_num; omega)⟩
    · exact ⟨2, "MB", by norm_num, by norm_num, by norm_num; omega, by norm_num; omega, rfl,
        byteCountToHuman_case b hb 2 1 'M' "MB" (by rw [hr]; norm_num) (by decide)
          (by decide) f2 (by norm_num; omega)⟩
    · exact ⟨3, "GB", by norm_num, by norm_num, by norm_num; omega, by norm_num; omega, rfl,
        byteCountToHuman_case b hb 3 2 'G' "GB" (by rw [hr]; norm_num) (by decide)
          (by decide) f3 (by norm_num; omega)⟩
    · exact ⟨4, "TB", by norm_num, by norm_num, by norm_num; omega, by norm_num; omega, rfl,
        byteCountToHuman_case b hb 4 3 'T' "TB" (by rw [hr]; norm_num) (by decide)
          (by decide) f4 (by norm_num; omega)⟩
    · exact ⟨5, "PB", by norm_num, by norm_num, by norm_num; omega, by norm_num; omega, rfl,
        byteCountToHuman_case b hb 5 4 'P' "PB" (by rw [hr]; norm_num) (by decide)
          (by decide) f5 (by norm_num; omega)⟩
    · exact ⟨6, "EB", by norm_num, by norm_num, by norm_num; omega, hmax, rfl,
        byteCountToHuman_case b hb 6 5 'E' "EB" (by rw [hr]; norm_num) (by decide)
          (by decide) f6 hmax⟩

set_option maxRecDepth 100000 in
/-- C11, counterexample: `b / 1000 ^ k` with one decimal place is not what is
printed.  For `b = 1749999999999999999`, where `k = 6`, the quotient is
1.749999999999999999: its nearest tenth is 1.7 and so is its truncation, but
the result is `1.8EB`, because `float64(b)` is 1750000000000000000.  For
`b = 1250000000000000120` the quotient is above 1.25 and its nearest tenth is
1.3, but the result is `1.2EB`, because `float64(b)` is 1250000000000000000
and the tie goes to the even digit. -/
theorem byteCountToHuman_rounding_counterexample :
    byteCountToHuman 1749999999999999999 = some "1.8EB"
    ∧ (1000 : Int) ^ 6 ≤ 1749999999999999999 ∧ (1749999999999999999 : Int) < 1000 ^ 7
    ∧ |17 * (1000 : Int) ^ 6 - 10 * 1749999999999999999|
        < |18 * (1000 : Int) ^ 6 - 10 * 1749999999999999999|
    ∧ (10 * 1749999999999999999 : Int) / 1000 ^ 6 = 17
    ∧ toFloat64 1749999999999999999 = 1750000000000000000
    ∧ byteCountToHuman 1250000000000000120 = some "1.2EB"
    ∧ (1000 : Int) ^ 6 ≤ 1250000000000000120 ∧ (1250000000000000120 : Int) < 1000 ^ 7
    ∧ |13 * (1000 : Int) ^ 6 - 10 * 1250000000000000120|
        < |12 * (1000 : Int) ^ 6 - 10 * 1250000000000000120|
    ∧ toFloat64 1250000000000000120 = 1250000000000000000 := by
  refine ⟨by decide, by norm_num, by norm_num, ?_, by norm_num, by decide, by decide,
    by norm_num, by norm_num, ?_, by decide⟩
  · rw [abs_of_neg (by norm_num), abs_of_pos (by norm_num)]
    norm_num
  · rw [abs_of_pos (by norm_num), abs_of_neg (by norm_num)]
    norm_num

/-- C11, amended: `byteCountToHuman` formats in units of 1000 with the unit
names B, kB, MB, GB, TB, PB, EB.  For `0 ≤ b < 1000` the result is the decimal
numeral of `b` followed by `B`.  For a 64-bit `b ≥ 1000`, with `k ≥ 1` the
largest integer such that `1000 ^ k ≤ b`, the result is a numeral with exactly
one digit after the point, followed by the `k`-th unit after B; the number
printed, `T / 10`, is `float64(b) / float64(1000 ^ k)` rounded by `%.1f`
(`T` is `quotientTenths`).  It differs from `b / 1000 ^ k` by at most
`0.05 * (1 + 10 ^ (-9))`, and it is the tenth `N / 10` whenever `b / 1000 ^ k`
is nearer than `0.05 * (1 - 10 ^ (-9))` to `N / 10`: it is the nearest tenth
except next to the middle between two tenths, where the rounding of the
`float64` conversion and division decides.  1 gives `1B`, 1000 gives `1.0kB`,
12345678 gives `12.3MB` and 999999 gives `1000.0kB`. -/
theorem byteCountToHuman_format (b : Int) (hhi : b ≤ maxInt) :
    (0 ≤ b → b < 1000 → byteCountToHuman b = some (fmtNat b.toNat ++ "B"))
    ∧ (1000 ≤ b → ∃ k u, 1 ≤ k ∧ k ≤ 6 ∧ (1000 : Int) ^ k ≤ b ∧ b < 1000 ^ (k + 1)
        ∧ ["kB", "MB", "GB", "TB", "PB", "EB"].get? (k - 1) = some u
        ∧ byteCountToHuman b
            = some (fmtNat (quotientTenths b.toNat (1000 ^ k) / 10) ++ "."
                ++ fmtNat (quotientTenths b.toNat (1000 ^ k) % 10) ++ u)
        ∧ (fmtNat (quotientTenths b.toNat (1000 ^ k) % 10)).length = 1
        ∧ 2 * 10 ^ 9 * |((quotientTenths b.toNat (1000 ^ k) : Nat) : Int) * 1000 ^ k - 10 * b|
            ≤ (10 ^ 9 + 1) * 1000 ^ k
        ∧ (∀ N : Int, 2 * 10 ^ 9 * |N * 1000 ^ k - 10 * b| < (10 ^ 9 - 1) * 1000 ^ k →
            ((quotientTenths b.toNat (1000 ^ k) : Nat) : Int) = N)
        ∧ fmtQuotient1 b.toNat (1000 ^ k)
            = fmtNat (quotientTenths b.toNat (1000 ^ k) / 10) ++ "."
                ++ fmtNat (quotientTenths b.toNat (1000 ^ k) % 10))
    ∧ byteCountToHuman 1 = some "1B"
    ∧ byteCountToHuman 1000 = some "1.0kB"
    ∧ byteCountToHuman 12345678 = some "12.3MB"
    ∧ byteCountToHuman 999999 = some "1000.0kB" := by
  obtain ⟨hsmall, hbig⟩ := byteCountToHuman_tenths b hhi
  refine ⟨hsmall, ?_, by decide, by decide, by decide, by decide⟩
  intro hb
  obtain ⟨k, u, h1, h2, h3, h4, h5, h6, h7, h8⟩ := hbig hb
  refine ⟨k, u, h1, h2, h3, h4, h5, h6, h7, h8, ?_, fmtQuotient1_eq _ _⟩
  intro N hN
  exact tenths_nearest _ N (1000 ^ k) (10 * b) (by positivity) h8 hN

/-- C11 at 12345678: the numeral has 123 tenths and the unit is MB. -/
theorem byteCountToHuman_format_witness :
    ∃ k u, 1 ≤ k ∧ k ≤ 6 ∧ (1000 : Int) ^ k ≤ 12345678 ∧ (12345678 : Int) < 1000 ^ (k + 1)
      ∧ ["kB", "MB", "GB", "TB", "PB", "EB"].get? (k - 1) = some u
      ∧ byteCountToHuman 12345678
          = some (fmtNat (quotientTenths (12345678 : Int).toNat (1000 ^ k) / 10) ++ "."
              ++ fmtNat (quotientTenths (12345678 : Int).toNat (1000 ^ k) % 10) ++ u) := by
  obtain ⟨k, u, h1, h2, h3, h4, h5, h6, -⟩ :=
    (byteCountToHuman_format 12345678 (by decide)).2.1 (by decide)
  exact ⟨k, u, h1, h2, h3, h4, h5, h6⟩

/-- C18: for every byte count `b` up to the largest 64-bit integer,
`byteCountToHuman` returns; when `b ≥ 1000` its loop ends by its own test
within five iterations (the result is the same for any fuel of at least 6),
leaving `exp` in `0..5`, so the index into `kMGTPE` is in bounds, and
`div = 1000 ^ (exp + 1)`, at most `b`, so no multiplication overflowed. -/
theorem byteCountToHuman_index_in_bounds (b : Int) (hhi : b ≤ maxInt) :
    (∃ s, byteCountToHuman b = some s)
    ∧ (1000 ≤ b → ∀ fuel, 6 ≤ fuel →
        humanLoop fuel (b / 1000) 1000 0 = humanLoop b.toNat (b / 1000) 1000 0
        ∧ 0 ≤ (humanLoop fuel (b / 1000) 1000 0).2
        ∧ (humanLoop fuel (b / 1000) 1000 0).2 ≤ 5
        ∧ (unitChar (humanLoop fuel (b / 1000) 1000 0).2).isSome = true
        ∧ (humanLoop fuel (b / 1000) 1000 0).1
            = 1000 ^ ((humanLoop fuel (b / 1000) 1000 0).2.toNat + 1)
        ∧ (humanLoop fuel (b / 1000) 1000 0).1 ≤ b
        ∧ (humanLoop fuel (b / 1000) 1000 0).1 ≤ maxInt) := by
  refine ⟨byteCountToHuman_isSome b hhi, ?_⟩
  intro hb fuel hfuel
  have hsame : humanLoop fuel (b / 1000) 1000 0 = humanLoop b.toNat (b / 1000) 1000 0 := by
    rcases humanLoop_result b hb hhi fuel hfuel with
      ⟨h2, hr⟩ | ⟨h1, h2, hr⟩ | ⟨h1, h2, hr⟩ | ⟨h1, h2, hr⟩ | ⟨h1, h2, hr⟩ | ⟨h1, hr⟩ <;>
    rcases humanLoop_result b hb hhi b.toNat (by omega) with
      ⟨g2, gr⟩ | ⟨g1, g2, gr⟩ | ⟨g1, g2, gr⟩ | ⟨g1, g2, gr⟩ | ⟨g1, g2, gr⟩ | ⟨g1, gr⟩ <;>
    first
      | (exfalso; omega)
      | (rw [hr, gr])
  refine ⟨hsame, ?_⟩
  rcases humanLoop_result b hb hhi fuel hfuel with
    ⟨h2, hr⟩ | ⟨h1, h2, hr⟩ | ⟨h1, h2, hr⟩ | ⟨h1, h2, hr⟩ | ⟨h1, h2, hr⟩ | ⟨h1, hr⟩ <;>
  rw [hr] <;>
  refine ⟨by norm_num, by norm_num, by decide, by decide, ?_, ?_⟩ <;>
  first
    | (unfold maxInt; norm_num)
    | (norm_num; omega)

/-- C18 at the largest 64-bit integer: the loop stops with `exp = 5` and
`div = 10 ^ 18`. -/
theorem byteCountToHuman_index_in_bounds_witness :
    (∃ s, byteCountToHuman 9223372036854775807 = some s)
    ∧ humanLoop 6 (9223372036854775807 / 1000) 1000 0 = (1000000000000000000, 5) := by
  have h := byteCountToHuman_index_in_bounds 9223372036854775807 (by decide)
  exact ⟨h.1, by decide⟩

/-! ## Claims on the report and on `main` -/

set_option maxRecDepth 100000 in
/-- C12: a scan of two objects last modified within the same second, `a` at
0.9 s (1 byte) and `b` at 0.1 s (2 bytes).  The descriptors show whole seconds
only, so they are ordered by the size text: the sample for the count 1 is the
descriptor of `b`, though `a` is the newer object, and the sample for the
count -1 is the descriptor of `a`, though `b` is the older one. -/
theorem sample_not_by_time :
    (Analyze ⟨"bk", Time.zero, none, []⟩ [] 1
        ⟨none, [[⟨"a", ⟨63082281600, 900000000, 0⟩, 1, "o"⟩,
                 ⟨"b", ⟨63082281600, 100000000, 0⟩, 2, "o"⟩]], none⟩).map
        (fun b => b.AnalysisChannel.map Analysis.Objects)
      = some [["2000-01-01T00:00:00Z 2B b"]]
    ∧ (Analyze ⟨"bk", Time.zero, none, []⟩ [] (-1)
        ⟨none, [[⟨"a", ⟨63082281600, 900000000, 0⟩, 1, "o"⟩,
                 ⟨"b", ⟨63082281600, 100000000, 0⟩, 2, "o"⟩]], none⟩).map
        (fun b => b.AnalysisChannel.map Analysis.Objects)
      = some [["2000-01-01T00:00:00Z 1B a"]]
    ∧ Time.Before ⟨63082281600, 100000000, 0⟩ ⟨63082281600, 900000000, 0⟩ = true := by
  refine ⟨by decide, by decide, by decide⟩

/-- C13, counterexample: with eleven buckets the channel has capacity 10,
less than the number of buckets, and the eleventh send, made while ten
messages wait unread, does not complete. -/
theorem capacity_counterexample :
    resultChannelCapacity (List.replicate 11 ⟨"b", Time.zero, none, []⟩) = 10
    ∧ (List.replicate 11 (⟨"b", Time.zero, none, []⟩ : Bucket)).length = 11
    ∧ sendCompletes
        (resultChannelCapacity (List.replicate 11 ⟨"b", Time.zero, none, []⟩)) 10 = false := by
  refine ⟨rfl, rfl, by decide⟩

/-- C13, amended: the result channel is created with capacity 10 whatever the
number of buckets; the capacity is at least the bucket count, and every send
made before the collector starts reading completes without blocking, exactly
when there are at most 10 buckets. -/
theorem capacity_is_ten (buckets : List Bucket) :
    resultChannelCapacity buckets = 10
    ∧ (buckets.length ≤ resultChannelCapacity buckets ↔ buckets.length ≤ 10)
    ∧ ((∀ j, j < buckets.length → sendCompletes (resultChannelCapacity buckets) j = true)
        ↔ buckets.length ≤ 10) := by
  refine ⟨rfl, Iff.rfl, ?_⟩
  simp only [resultChannelCapacity, sendCompletes, decide_eq_true_eq]
  constructor
  · intro h
    by_contra hc
    have := h 10 (by omega)
    omega
  · intro h j hj
    omega

/-- The loop `collect` never waits longer than `timeout` for one message: a
run that reads every message ends within `timeout` seconds per message. -/
theorem collect_bound (timeout now t : Int) (arrivals : List Int) (h0 : 0 < timeout)
    (h : collect timeout now arrivals = .ok t) :
    now ≤ t ∧ t ≤ now + arrivals.length * timeout := by
  induction arrivals generalizing now with
  | nil =>
    simp only [collect, Except.ok.injEq] at h
    subst h
    simp
  | cons a rest ih =>
    simp only [collect] at h
    split_ifs at h with hlt
    obtain ⟨i1, i2⟩ := ih (max now a) h
    have hmax : max now a < now + timeout := max_lt (by omega) hlt
    have hle : now ≤ max now a := le_max_left _ _
    have hn : (0 : Int) ≤ (rest.length : Int) * timeout :=
      mul_nonneg (Int.natCast_nonneg _) (le_of_lt h0)
    refine ⟨by omega, ?_⟩
    simp only [List.length_cons, Nat.cast_add, Nat.cast_one]
    have : ((rest.length : Int) + 1) * timeout = (rest.length : Int) * timeout + timeout := by
      ring
    rw [this]
    omega

/-- C14: with `-timeout=600` and two buckets whose results become available
500 s and 1000 s after the loop starts, the loop reads both and ends at
1000 s without reporting a timeout, 400 s after the deadline the claim
states: every iteration starts a timer of its own.  With a single deadline
the run would end at 600 s; the loop reports a timeout only when one message
takes 600 s or more from the previous read, as for the arrivals 500 s and
1100 s.  In general a run without timeout ends within `timeout` seconds per
bucket, not within `timeout` seconds. -/
theorem collect_deadline_is_per_iteration :
    collect 600 0 [500, 1000] = .ok 1000
    ∧ collect 600 0 [500, 1100] = .error 1100
    ∧ (∀ timeout arrivals t, 0 < timeout → collect timeout 0 arrivals = .ok t →
        t ≤ arrivals.length * timeout) := by
  refine ⟨by decide, by decide, ?_⟩
  intro timeout arrivals t h0 h
  have := (collect_bound timeout 0 t arrivals h0 h).2
  simpa using this

/-! ## Claims on `newAnalysis` and on the result of `Analyze` -/

set_option maxRecDepth 100000 in
/-- C15, counterexample: for a bucket whose creation date lies in the year
10000 the structured form of `newAnalysis(b, 0)` is not an object with the
three fields: `json.Marshal` fails on the creation date and `JSON()` returns
the text of the encoding error. -/
theorem newAnalysis_json_counterexample :
    (newAnalysis ⟨"b", ⟨315537897600, 0, 0⟩, none, []⟩ 0).JSON = .encodingError
    ∧ Time.Year ⟨315537897600, 0, 0⟩ = 10000
    ∧ Time.FormatRFC3339 ⟨315537897600, 0, 0⟩ = "10000-01-01T00:00:00Z" := by
  refine ⟨by decide, by decide, by decide⟩

set_option maxRecDepth 100000 in
/-- C15, amended: for every bucket `b` and display count `n`, `newAnalysis b n`
is the empty `Analysis`: the name and creation date of `b`, the display count
`n`, size and count 0, the zero time as `LastModified`, an empty owner map, an
empty list of objects and no error.  Its `String()` form is the header
followed by the two titles, with no object line and no owner line, in every
run.  Its structured form, whenever the creation date of `b` encodes, is the
object holding `"SizePerOwnerID":{}`, `"Objects":[]` and `"Error":null`; the
creation date encodes when its year is within 0..9999 and its zone offset is
under 24 hours, and when its year is outside 0..9999 `JSON()` returns the text
of the encoding error.  For the default bucket both forms are the texts the
tests expect. -/
theorem newAnalysis_is_empty (b : Bucket) (n : Int) :
    newAnalysis b n = ⟨b.Name, b.CreationDate, Time.zero, 0, n, 0, [], [], none⟩
    ∧ (newAnalysis b n).String
        = some ("Name: " ++ b.Name ++ "\nObjectCount: " ++ "0"
            ++ "\nTotalSize: " ++ "0B"
            ++ "\nCreationDate: " ++ b.CreationDate.FormatRFC3339
            ++ "\nLastModified: " ++ "0001-01-01T00:00:00Z" ++ "\n"
            ++ "Objects:\n" ++ "" ++ "TotalSizePerAccount:\n" ++ "")
    ∧ (∀ visit : OwnerMap, visit.Perm (newAnalysis b n).SizePerOwnerID →
        (newAnalysis b n).StringVisiting visit = (newAnalysis b n).String)
    ∧ (∀ created, b.CreationDate.MarshalJSON = some created →
        (newAnalysis b n).JSON
          = .encoded ("\x7b\"Name\":" ++ jsonString b.Name
            ++ ",\"CreationDate\":" ++ created
            ++ ",\"LastModified\":" ++ "\"0001-01-01T00:00:00Z\""
            ++ ",\"TotalSize\":" ++ "0"
            ++ ",\"DisplayObjectCount\":" ++ fmtInt n
            ++ ",\"TotalCount\":" ++ "0"
            ++ ",\"SizePerOwnerID\":" ++ "\x7b\x7d"
            ++ ",\"Objects\":" ++ "[]"
            ++ ",\"Error\":" ++ "null" ++ "\x7d"))
    ∧ (0 ≤ b.CreationDate.Year → b.CreationDate.Year < 10000 →
        -86400 < b.CreationDate.offset → b.CreationDate.offset < 86400 →
        b.CreationDate.MarshalJSON
          = some (String.mk [quoteChar] ++ b.CreationDate.FormatRFC3339Nano
              ++ String.mk [quoteChar]))
    ∧ (b.CreationDate.Year < 0 ∨ 10000 ≤ b.CreationDate.Year →
        (newAnalysis b n).JSON = .encodingError)
    ∧ (newAnalysis ⟨"", Time.zero, none, []⟩ 0).JSON
        = .encoded ("\x7b\"Name\":\"\",\"CreationDate\":\"0001-01-01T00:00:00Z\","
          ++ "\"LastModified\":\"0001-01-01T00:00:00Z\",\"TotalSize\":0,"
          ++ "\"DisplayObjectCount\":0,\"TotalCount\":0,\"SizePerOwnerID\":\x7b\x7d,"
          ++ "\"Objects\":[],\"Error\":null\x7d")
    ∧ (newAnalysis ⟨"", Time.zero, none, []⟩ 0).String
        = some ("Name: \nObjectCount: 0\nTotalSize: 0B\nCreationDate: 0001-01-01T00:00:00Z\n"
          ++ "LastModified: 0001-01-01T00:00:00Z\nObjects:\nTotalSizePerAccount:\n") := by
  refine ⟨rfl, ?_, ?_, ?_, ?_, ?_, by decide, by decide⟩
  · have h0 : byteCountToHuman (newAnalysis b n).TotalSize = some "0B" := by
      show byteCountToHuman 0 = _
      decide
    have h1 : ownerLines (newAnalysis b n).TotalSize (newAnalysis b n).SizePerOwnerID
        = some "" := rfl
    have h2 : fmtInt (newAnalysis b n).TotalCount = "0" := by
      show fmtInt 0 = _
      decide
    have h3 : (newAnalysis b n).LastModified.FormatRFC3339 = "0001-01-01T00:00:00Z" := by
      show Time.zero.FormatRFC3339 = _
      decide
    have h4 : objectLines (newAnalysis b n).Objects = "" := rfl
    have h5 : (newAnalysis b n).Name = b.Name := rfl
    have h6 : (newAnalysis b n).CreationDate = b.CreationDate := rfl
    unfold Analysis.String Analysis.StringVisiting
    rw [h0, h1, h2, h3, h4, h5, h6]
  · intro visit hperm
    have hv : visit = [] := List.Perm.eq_nil hperm
    rw [hv]
    rfl
  · intro created hc
    have hm : (newAnalysis b n).LastModified.MarshalJSON = some "\"0001-01-01T00:00:00Z\"" := by
      show Time.zero.MarshalJSON = _
      decide
    have hc' : (newAnalysis b n).CreationDate.MarshalJSON = some created := hc
    have h1 : fmtInt (newAnalysis b n).TotalSize = "0" := by
      show fmtInt 0 = _
      decide
    have h2 : fmtInt (newAnalysis b n).TotalCount = "0" := by
      show fmtInt 0 = _
      decide
    have h3 : jsonOwnerMap (newAnalysis b n).SizePerOwnerID = "\x7b\x7d" := by
      show jsonOwnerMap [] = _
      decide
    have h4 : jsonStrings (newAnalysis b n).Objects = "[]" := by
      show jsonStrings [] = _
      decide
    have h5 : (newAnalysis b n).Name = b.Name := rfl
    have h6 : (newAnalysis b n).DisplayObjectCount = n := rfl
    have h7 : jsonError (newAnalysis b n).Error = .ok "null" := rfl
    unfold Analysis.JSON Analysis.marshal
    rw [hc', hm, h7]
    simp only [Analysis.jsonFields]
    rw [h1, h2, h3, h4, h5, h6]
  · intro hy0 hy1 ho0 ho1
    unfold Time.MarshalJSON
    rw [if_neg (by omega), if_neg]
    rintro ⟨-, h24⟩
    rw [Int.natAbs_tdiv] at h24
    have h60 : b.CreationDate.offset.natAbs.div (Int.natAbs 60)
        = b.CreationDate.offset.natAbs / 60 := rfl
    rw [h60] at h24
    omega
  · intro hy
    have hc : (newAnalysis b n).CreationDate.MarshalJSON = none := by
      show b.CreationDate.MarshalJSON = none
      unfold Time.MarshalJSON
      rw [if_pos hy]
    unfold Analysis.JSON Analysis.marshal
    rw [hc]

theorem processObjects_error (a a' : Analysis) (objs : List Object)
    (h : processObjects a objs = some a') :
    a'.Error = a.Error ∧ a'.Name = a.Name ∧ a'.CreationDate = a.CreationDate := by
  induction objs generalizing a with
  | nil =>
    simp only [processObjects, Option.some.injEq] at h
    subst h
    exact ⟨rfl, rfl, rfl⟩
  | cons o rest ih =>
    simp only [processObjects] at h
    cases h1 : processObject a o with
    | none => simp [h1] at h
    | some a1 =>
      rw [h1] at h
      simp only at h
      obtain ⟨-, -, -, -, -, fN, fC, -, fE⟩ := processObject_fields a a1 o h1
      obtain ⟨iE, iN, iC⟩ := ih a1 h
      exact ⟨by rw [iE, fE], by rw [iN, fN], by rw [iC, fC]⟩

set_option maxRecDepth 100000 in
/-- C16: with the display count `-2^63` and a listing that succeeds (here one
page with one object) `Analyze` does not return: `onlyN` panics inside
`completeAnalysis` and no `Analysis` is sent.  For every other run (64-bit
sizes, a display count above `minInt`, a listing that fails or delivers at
least one page) exactly one message is added to the channel: it carries the
error of the region lookup or of the listing if there is one, and otherwise
it is the finalized `Analysis` of all the objects, with `Error` nil. -/
theorem analyze_sends_one_variant :
    Analyze ⟨"bk", Time.zero, none, []⟩ [] (-9223372036854775808)
        ⟨none, [[⟨"key1", ⟨63082281600, 0, 0⟩, 1024, "ownerid1"⟩]], none⟩ = none
    ∧ (∀ (b : Bucket) (ch : List Analysis) (n : Int) (s3 : Backend),
        (∀ o ∈ s3.pages.flatten, o.Size ≤ maxInt) →
        (s3.pages.flatten.length : Int) ≤ maxInt →
        minInt < n → n ≤ maxInt →
        (s3.serviceErr = none → s3.listErr = none → s3.pages ≠ []) →
        ∃ msg, (Analyze b ch n s3).map Bucket.AnalysisChannel = some (ch ++ [msg])
          ∧ (∀ e, s3.serviceErr = some e → msg.Error = some e)
          ∧ (s3.serviceErr = none → ∀ e, s3.listErr = some e → msg.Error = some e)
          ∧ (s3.serviceErr = none → s3.listErr = none →
              msg.Error = none
              ∧ ∃ a, processObjects (newAnalysis b n) s3.pages.flatten = some a
                  ∧ onlyN (sortStrings a.Objects) n = some msg.Objects)) := by
  refine ⟨by decide, ?_⟩
  intro b ch n s3 hsz hlen hlo hhi hpages
  obtain ⟨serviceErr, pages, listErr⟩ := s3
  simp only at hsz hlen hpages
  obtain ⟨a, ha⟩ := processObjects_isSome (newAnalysis b n) pages.flatten hsz
  obtain ⟨-, -, cD, cO⟩ := processObjects_counters (newAnalysis b n) a _
    (show wrap64 0 = 0 by decide) (show wrap64 0 = 0 by decide) ha
  obtain ⟨cE, -, -⟩ := processObjects_error (newAnalysis b n) a _ ha
  cases serviceErr with
  | some e =>
    refine ⟨{ newAnalysis b n with Error := some e }, rfl, ?_, ?_, ?_⟩
    · intro e' he'
      simp only [Option.some.injEq] at he'
      rw [← he']
    · intro h
      cases h
    · intro h
      cases h
  | none =>
    cases listErr with
    | some e =>
      refine ⟨{ a with Error := some e }, ?_, ?_, ?_, ?_⟩
      · unfold Analyze
        simp only
        rw [listObjectsPages_failure _ (newAnalysis b n) pages e rfl, ha]
        rfl
      · intro e' he'
        cases he'
      · intro _ e' he'
        simp only [Option.some.injEq] at he'
        rw [← he']
      · intro _ h
        cases h
    | none =>
      cases pages with
      | nil => exact absurd rfl (hpages rfl rfl)
      | cons page rest =>
        have hl : ((sortStrings a.Objects).length : Int) ≤ maxInt := by
          rw [sortStrings_length, cO]
          simpa [newAnalysis] using hlen
        obtain ⟨s, hs⟩ := onlyN_isSome (sortStrings a.Objects) n hl hlo hhi
        have hD : a.DisplayObjectCount = n := cD
        refine ⟨{ a with Objects := s }, ?_, ?_, ?_, ?_⟩
        · unfold Analyze
          simp only
          rw [listObjectsPages_success _ (newAnalysis b n) page rest rfl, ha]
          simp only [Option.some_bind]
          rw [completeAnalysis_eq _ a rfl, hD, hs]
          rfl
        · intro e' he'
          cases he'
        · intro _ e' he'
          cases he'
        · intro _ _
          exact ⟨cE, a, ha, hs⟩

/-! ## The entries of the owner map -/

theorem mapGet_mapAddTo_same (m : OwnerMap) (k : String) (v : Int) :
    mapGet (mapAddTo m k v) k = some (wrap64 ((mapGet m k).getD 0 + v)) := by
  induction m with
  | nil => simp [mapAddTo, mapGet]
  | cons p rest ih =>
    obtain ⟨k', x⟩ := p
    simp only [mapAddTo, mapGet]
    by_cases hk : k' = k
    · simp [hk, mapGet]
    · simp [hk, mapGet, ih]

theorem mapGet_mapAddTo_other (m : OwnerMap) (k k' : String) (v : Int) (hne : k' ≠ k) :
    mapGet (mapAddTo m k v) k' = mapGet m k' := by
  induction m with
  | nil => simp [mapAddTo, mapGet, Ne.symm hne]
  | cons p rest ih =>
    obtain ⟨k0, x⟩ := p
    simp only [mapAddTo, mapGet]
    by_cases hk : k0 = k
    · have hk0 : ¬ k0 = k' := fun h => hne (h ▸ hk)
      rw [if_pos hk]
      simp [mapGet, hk0]
    · rw [if_neg hk]
      by_cases hk' : k0 = k'
      · simp [mapGet, hk']
      · simp [mapGet, hk', ih]

/-- The entry of an owner after a sequence of calls: untouched when the owner
has no object in the sequence, else the old value (0 when absent) plus the
sizes of the owner's objects, reduced to 64 bits. -/
theorem processObjects_owner_entry (a a' : Analysis) (objs : List Object) (owner : String)
    (h : processObjects a objs = some a') :
    mapGet a'.SizePerOwnerID owner
      = if objs.filter (fun x => x.OwnerID = owner) = [] then mapGet a.SizePerOwnerID owner
        else some (wrap64 ((mapGet a.SizePerOwnerID owner).getD 0 + ownedSizes owner objs)) := by
  induction objs generalizing a with
  | nil =>
    simp only [processObjects, Option.some.injEq] at h
    subst h
    simp
  | cons o rest ih =>
    simp only [processObjects] at h
    cases h1 : processObject a o with
    | none => simp [h1] at h
    | some a1 =>
      rw [h1] at h
      simp only at h
      obtain ⟨-, -, fM, -⟩ := processObject_fields a a1 o h1
      rw [ih a1 h, fM]
      by_cases ho : o.OwnerID = owner
      · have hf : (o :: rest).filter (fun x => x.OwnerID = owner)
            = o :: rest.filter (fun x => x.OwnerID = owner) := by
          simp [List.filter_cons, ho]
        have hs : ownedSizes owner (o :: rest) = o.Size + ownedSizes owner rest := by
          simp [ownedSizes, List.filter_cons, ho]
        rw [hf, hs, ← ho, mapGet_mapAddTo_same]
        simp only [reduceCtorEq, if_false, Option.getD_some]
        split_ifs with hr
        · have : ownedSizes o.OwnerID rest = 0 := by simp [ownedSizes, hr]
          rw [this, add_zero]
        · rw [wrap64_wrap64_add, add_assoc]
      · have hf : (o :: rest).filter (fun x => x.OwnerID = owner)
            = rest.filter (fun x => x.OwnerID = owner) := by
          simp [List.filter_cons, ho]
        have hs : ownedSizes owner (o :: rest) = ownedSizes owner rest := by
          simp [ownedSizes, List.filter_cons, ho]
        rw [hf, hs, mapGet_mapAddTo_other _ _ _ _ (Ne.symm ho)]

set_option maxRecDepth 100000 in
/-- C17, counterexample: two objects of `2^62` bytes of the same owner,
processed from a fresh `Analysis`, leave the owner's entry at `-2^63` while
the sizes of the owner's objects sum to `2^63`. -/
theorem ownerEntry_wraps_counterexample :
    (processObjects (newAnalysis ⟨"b", Time.zero, none, []⟩ 0)
        [⟨"k1", Time.zero, 4611686018427387904, "o1"⟩,
         ⟨"k2", Time.zero, 4611686018427387904, "o1"⟩]).map
        (fun a => mapGet a.SizePerOwnerID "o1") = some (some (-9223372036854775808))
    ∧ ownedSizes "o1" [⟨"k1", Time.zero, 4611686018427387904, "o1"⟩,
         ⟨"k2", Time.zero, 4611686018427387904, "o1"⟩] = 9223372036854775808 := by
  refine ⟨by decide, by decide⟩

/-- C17, amended: for every `Analysis` and every object of 64-bit size,
`processObject` returns, adds the object's size to the entry of its owner in
`SizePerOwnerID` (starting from 0 when the entry is absent, the sum reduced to
64 bits), leaves the entry of every other owner as it was, and appends exactly
one descriptor, `<lastModified RFC3339> <humanSize> <key>`, at the end of the
working list.  Hence after any sequence of calls from a fresh `Analysis` an
owner with no processed object has no entry, and the entry of any other owner
is the sum of the sizes of its processed objects reduced to 64 bits, which is
the sum itself whenever that sum lies in the 64-bit range. -/
theorem processObject_owner_entries (b : Bucket) (n : Int) (objs : List Object)
    (hsz : ∀ o ∈ objs, o.Size ≤ maxInt) :
    (∀ (a : Analysis) (o : Object), o.Size ≤ maxInt →
      ∃ a' human, processObject a o = some a' ∧ byteCountToHuman o.Size = some human
        ∧ mapGet a'.SizePerOwnerID o.OwnerID
            = some (wrap64 ((mapGet a.SizePerOwnerID o.OwnerID).getD 0 + o.Size))
        ∧ (∀ k, k ≠ o.OwnerID → mapGet a'.SizePerOwnerID k = mapGet a.SizePerOwnerID k)
        ∧ a'.Objects
            = a.Objects ++ [o.LastModified.FormatRFC3339 ++ " " ++ human ++ " " ++ o.Key])
    ∧ ∃ a, processObjects (newAnalysis b n) objs = some a
      ∧ (∀ owner, objs.filter (fun x => x.OwnerID = owner) = [] →
          mapGet a.SizePerOwnerID owner = none)
      ∧ (∀ owner, objs.filter (fun x => x.OwnerID = owner) ≠ [] →
          mapGet a.SizePerOwnerID owner = some (wrap64 (ownedSizes owner objs))
          ∧ (minInt ≤ ownedSizes owner objs → ownedSizes owner objs ≤ maxInt →
              mapGet a.SizePerOwnerID owner = some (ownedSizes owner objs))) := by
  constructor
  · intro a o ho
    obtain ⟨a', ha'⟩ := processObject_isSome a o ho
    obtain ⟨-, -, fM, -, ⟨human, hh, fO⟩, -⟩ := processObject_fields a a' o ha'
    refine ⟨a', human, ha', hh, ?_, ?_, fO⟩
    · rw [fM, mapGet_mapAddTo_same]
    · intro k hk
      rw [fM, mapGet_mapAddTo_other _ _ _ _ hk]
  · obtain ⟨a, ha⟩ := processObjects_isSome (newAnalysis b n) objs hsz
    refine ⟨a, ha, ?_, ?_⟩
    · intro owner hnone
      rw [processObjects_owner_entry _ a objs owner ha, if_pos hnone]
      rfl
    · intro owner hsome
      have hw : mapGet a.SizePerOwnerID owner = some (wrap64 (ownedSizes owner objs)) := by
        rw [processObjects_owner_entry _ a objs owner ha, if_neg hsome]
        simp [newAnalysis, mapGet]
      refine ⟨hw, ?_⟩
      intro hlo hhi
      rw [hw]
      unfold minInt at hlo
      unfold maxInt at hhi
      rw [wrap64_of_range hlo (by omega)]

/-- C17 at three objects of two owners: the entries are 2048 and 1024, and an
owner without object has none. -/
theorem processObject_owner_entries_witness :
    ∃ a, processObjects (newAnalysis ⟨"Test", Time.zero, none, []⟩ (-5))
          [⟨"key1", ⟨63082281600, 0, 0⟩, 1024, "ownerid1"⟩,
           ⟨"key2", ⟨63082281600, 0, 0⟩, 1024, "ownerid2"⟩,
           ⟨"key3", ⟨63082281600, 0, 0⟩, 1024, "ownerid1"⟩] = some a
      ∧ mapGet a.SizePerOwnerID "ownerid1" = some 2048
      ∧ mapGet a.SizePerOwnerID "ownerid2" = some 1024
      ∧ mapGet a.SizePerOwnerID "ownerid3" = none := by
  obtain ⟨a, ha, hnone, hsome⟩ :=
    (processObject_owner_entries ⟨"Test", Time.zero, none, []⟩ (-5)
      [⟨"key1", ⟨63082281600, 0, 0⟩, 1024, "ownerid1"⟩,
       ⟨"key2", ⟨63082281600, 0, 0⟩, 1024, "ownerid2"⟩,
       ⟨"key3", ⟨63082281600, 0, 0⟩, 1024, "ownerid1"⟩] (by decide)).2
  refine ⟨a, ha, ?_, ?_, hnone "ownerid3" (by decide)⟩
  · rw [((hsome "ownerid1" (by decide)).2 (by decide) (by decide))]
    decide
  · rw [((hsome "ownerid2" (by decide)).2 (by decide) (by decide))]
    decide

/-! ## Size of the sample and repeated finalisation -/

theorem onlyN_length (a : List String) (n : Int) (hlen : (a.length : Int) ≤ maxInt)
    (hlo : minInt ≤ n) (hhi : n ≤ maxInt) (s : List String) (h : onlyN a n = some s) :
    s.length = min n.natAbs a.length := by
  unfold maxInt at hlen hhi
  unfold minInt at hlo
  by_cases h0 : 0 ≤ n
  · rw [onlyN_of_nonneg a n (by omega) h0 (by omega)] at h
    cases h
    rw [List.length_drop]
    omega
  · by_cases hmin : n = minInt
    · rw [hmin, onlyN_minInt a (by omega)] at h
      cases h
    · unfold minInt at hmin
      rw [onlyN_of_neg a n (by omega) (by omega)] at h
      cases h
      rw [List.length_take]
      omega

/-- A list no longer than `|n|` is returned whole by `onlyN`, unless `n` is
`minInt`. -/
theorem onlyN_whole (s : List String) (n : Int) (hlen : s.length ≤ n.natAbs)
    (hlo : minInt < n) (hhi : n ≤ maxInt) : onlyN s n = some s := by
  unfold maxInt at hhi
  unfold minInt at hlo
  by_cases h0 : 0 ≤ n
  · rw [onlyN_of_nonneg s n (by omega) h0 (by omega)]
    have : s.length - min n.toNat s.length = 0 := by omega
    rw [this, List.drop_zero]
  · rw [onlyN_of_neg s n (by omega) (by omega)]
    have : min (-n).toNat s.length = s.length := by omega
    rw [this, List.take_length]

theorem sortStrings_of_sorted (s : List String)
    (h : List.Sorted (fun a b => stringLess b a = false) s) : sortStrings s = s :=
  List.Sorted.insertionSort_eq h

/-- Selecting from the sorted list and sorting and selecting again gives the
first selection. -/
theorem onlyN_sort_again (xs s : List String) (n : Int) (hlen : (xs.length : Int) ≤ maxInt)
    (hlo : minInt ≤ n) (hhi : n ≤ maxInt) (h : onlyN (sortStrings xs) n = some s) :
    onlyN (sortStrings s) n = some s := by
  have hl : ((sortStrings xs).length : Int) ≤ maxInt := by
    rw [sortStrings_length]; exact hlen
  obtain ⟨hsub, hle⟩ := onlyN_sublist_length _ _ hl hlo hhi s h
  have hsorted : List.Sorted (fun a b => stringLess b a = false) s :=
    List.Pairwise.sublist hsub (sortStrings_sorted xs)
  rw [sortStrings_of_sorted s hsorted]
  have hne : n ≠ minInt := by
    intro hmin
    rw [hmin, onlyN_minInt _ (by unfold maxInt at hl; omega)] at h
    cases h
  exact onlyN_whole s n hle (lt_of_le_of_ne hlo (Ne.symm hne)) hhi

/-- The working list after a sequence of calls: one descriptor per object, in
the order of the calls, after what it held before. -/
theorem processObjects_descriptors (a a' : Analysis) (objs : List Object)
    (h : processObjects a objs = some a') :
    ∃ ds, a'.Objects = a.Objects ++ ds
      ∧ List.Forall₂ (fun (o : Object) (d : String) =>
          ∃ human, byteCountToHuman o.Size = some human
            ∧ d = o.LastModified.FormatRFC3339 ++ " " ++ human ++ " " ++ o.Key) objs ds := by
  induction objs generalizing a with
  | nil =>
    simp only [processObjects, Option.some.injEq] at h
    subst h
    exact ⟨[], by simp, List.Forall₂.nil⟩
  | cons o rest ih =>
    simp only [processObjects] at h
    cases h1 : processObject a o with
    | none => simp [h1] at h
    | some a1 =>
      rw [h1] at h
      simp only at h
      obtain ⟨-, -, -, -, ⟨human, hh, fO⟩, -⟩ := processObject_fields a a1 o h1
      obtain ⟨ds, hds, hall⟩ := ih a1 h
      refine ⟨_ :: ds, ?_, List.Forall₂.cons ⟨human, hh, rfl⟩ hall⟩
      rw [hds, fO, List.append_assoc]
      rfl

/-! ## Claims on the sample -/

/-- C19: for every listing that succeeds with one or more pages, the last one
flagged `lastPage` (objects of 64-bit sizes, at most `maxInt` of them),
processed from a fresh `Analysis` with a display count `N` of the machine
integer range: before finalization the working list holds exactly `TotalCount`
entries, one descriptor per processed object; whenever the run returns, the
finalized sample has exactly `min(|N|, TotalCount)` entries, each of them one
of these descriptors; and the run returns for every `N` other than `minInt`. -/
theorem finalized_sample_size (b : Bucket) (ch : List Analysis) (n : Int)
    (page : List Object) (pages : List (List Object))
    (hsz : ∀ o ∈ (page :: pages).flatten, o.Size ≤ maxInt)
    (hlen : ((page :: pages).flatten.length : Int) ≤ maxInt)
    (hlo : minInt ≤ n) (hhi : n ≤ maxInt) :
    ∃ a, processObjects (newAnalysis b n) (page :: pages).flatten = some a
      ∧ a.TotalCount = ((page :: pages).flatten.length : Int)
      ∧ (a.Objects.length : Int) = a.TotalCount
      ∧ List.Forall₂ (fun (o : Object) (d : String) =>
          ∃ human, byteCountToHuman o.Size = some human
            ∧ d = o.LastModified.FormatRFC3339 ++ " " ++ human ++ " " ++ o.Key)
          (page :: pages).flatten a.Objects
      ∧ (∀ b', Analyze b ch n ⟨none, page :: pages, none⟩ = some b' →
          ∃ s, b'.AnalysisChannel = ch ++ [{ a with Objects := s }]
            ∧ (s.length : Int) = min |n| a.TotalCount
            ∧ ∀ x ∈ s, x ∈ a.Objects)
      ∧ (n ≠ minInt → ∃ b', Analyze b ch n ⟨none, page :: pages, none⟩ = some b') := by
  obtain ⟨a, ha⟩ := processObjects_isSome (newAnalysis b n) _ hsz
  obtain ⟨-, cC, cD, cO⟩ := processObjects_counters (newAnalysis b n) a _
    (show wrap64 0 = 0 by decide) (show wrap64 0 = 0 by decide) ha
  obtain ⟨ds, hds, hall⟩ := processObjects_descriptors (newAnalysis b n) a _ ha
  have hD : a.DisplayObjectCount = n := cD
  have hO : a.Objects.length = (page :: pages).flatten.length := by
    rw [cO]; simp [newAnalysis]
  have hC : a.TotalCount = ((page :: pages).flatten.length : Int) := by
    rw [cC]
    show wrap64 (0 + _) = _
    rw [zero_add]
    unfold maxInt at hlen
    exact wrap64_of_range (by omega) (by omega)
  have hl : ((sortStrings a.Objects).length : Int) ≤ maxInt := by
    rw [sortStrings_length, hO]
    exact hlen
  have hrun : Analyze b ch n ⟨none, page :: pages, none⟩
      = completeAnalysis { b with Analysis := some a, AnalysisChannel := ch } := by
    unfold Analyze
    simp only
    rw [listObjectsPages_success _ (newAnalysis b n) page pages rfl, ha]
    simp only [Option.some_bind]
    cases completeAnalysis { b with Analysis := some a, AnalysisChannel := ch } <;> rfl
  refine ⟨a, ha, hC, by rw [hC, hO], ?_, ?_, ?_⟩
  · have : a.Objects = ds := by rw [hds]; rfl
    rw [this]
    exact hall
  · intro b' hb'
    rw [hrun, completeAnalysis_eq _ a rfl] at hb'
    cases hs : onlyN (sortStrings a.Objects) a.DisplayObjectCount with
    | none => simp [hs] at hb'
    | some s =>
      simp only [hs, Option.map_some', Option.some.injEq] at hb'
      subst hb'
      rw [hD] at hs
      have hlen_s := onlyN_length _ _ hl hlo hhi s hs
      obtain ⟨hsub, -⟩ := onlyN_sublist_length _ _ hl hlo hhi s hs
      refine ⟨s, rfl, ?_, ?_⟩
      · rw [hlen_s, sortStrings_length, hC, hO]
        simp [Int.natCast_natAbs]
      · intro x hx
        exact (sortStrings_perm a.Objects).subset (hsub.subset hx)
  · intro hne
    obtain ⟨s, hs⟩ := onlyN_isSome (sortStrings a.Objects) n hl
      (lt_of_le_of_ne hlo (Ne.symm hne)) hhi
    rw [hrun, completeAnalysis_eq _ a rfl, hD, hs]
    exact ⟨_, rfl⟩

/-- C19 at a scan of two pages with three objects and the display count 2. -/
theorem finalized_sample_size_witness :
    ∃ a, processObjects (newAnalysis ⟨"Test", Time.zero, none, []⟩ 2)
          ([[⟨"key1", ⟨63082281600, 0, 0⟩, 1024, "ownerid1"⟩,
             ⟨"key2", ⟨63082281700, 0, 0⟩, 1024, "ownerid2"⟩],
            [⟨"key3", ⟨63082281800, 0, 0⟩, 1024, "ownerid1"⟩]] : List (List Object)).flatten
          = some a
      ∧ a.TotalCount = 3
      ∧ ∃ b', Analyze ⟨"Test", Time.zero, none, []⟩ [] 2
          ⟨none, [[⟨"key1", ⟨63082281600, 0, 0⟩, 1024, "ownerid1"⟩,
             ⟨"key2", ⟨63082281700, 0, 0⟩, 1024, "ownerid2"⟩],
            [⟨"key3", ⟨63082281800, 0, 0⟩, 1024, "ownerid1"⟩]], none⟩ = some b' := by
  obtain ⟨a, ha, hC, -, -, -, hret⟩ :=
    finalized_sample_size ⟨"Test", Time.zero, none, []⟩ [] 2
      [⟨"key1", ⟨63082281600, 0, 0⟩, 1024, "ownerid1"⟩,
       ⟨"key2", ⟨63082281700, 0, 0⟩, 1024, "ownerid2"⟩]
      [[⟨"key3", ⟨63082281800, 0, 0⟩, 1024, "ownerid1"⟩]]
      (by decide) (by decide) (by decide) (by decide)
  exact ⟨a, ha, hC, hret (by decide)⟩

/-- C20: for every list `xs` of slice length and every display count `n` of
the machine integer range, sorting and selecting the sample a second time
gives the sample again: `onlyN (sort (onlyN (sort xs) n)) n = onlyN (sort xs) n`
(both sides panic when `n` is `minInt`).  So a second run of
`completeAnalysis` on a finalized `Analysis` returns and leaves `Objects`, and
the whole `Analysis`, unchanged; it sends that `Analysis` once more. -/
theorem sort_select_idempotent (xs : List String) (n : Int)
    (hlen : (xs.length : Int) ≤ maxInt) (hlo : minInt ≤ n) (hhi : n ≤ maxInt) :
    (onlyN (sortStrings xs) n).bind (fun s => onlyN (sortStrings s) n)
      = onlyN (sortStrings xs) n
    ∧ (∀ s, onlyN (sortStrings xs) n = some s → onlyN (sortStrings s) n = some s)
    ∧ (∀ (b b1 : Bucket) (a : Analysis), b.Analysis = some a → a.Objects = xs →
        a.DisplayObjectCount = n → completeAnalysis b = some b1 →
        ∃ a1, b1.Analysis = some a1
          ∧ completeAnalysis b1
              = some { b1 with AnalysisChannel := b1.AnalysisChannel ++ [a1] }) := by
  have hagain := fun s => onlyN_sort_again xs s n hlen hlo hhi
  refine ⟨?_, hagain, ?_⟩
  · cases hs : onlyN (sortStrings xs) n with
    | none => rfl
    | some s => simpa using hagain s hs
  · intro b b1 a hA hO hD hb1
    subst hO hD
    rw [completeAnalysis_eq b a hA] at hb1
    cases hs : onlyN (sortStrings a.Objects) a.DisplayObjectCount with
    | none => simp [hs] at hb1
    | some s =>
      simp only [hs, Option.map_some', Option.some.injEq] at hb1
      subst hb1
      refine ⟨{ a with Objects := s }, rfl, ?_⟩
      rw [completeAnalysis_eq _ { a with Objects := s } rfl]
      simp only [hagain s hs, Option.map_some']

/-- C20 at a list of four descriptors and the display count 2. -/
theorem sort_select_idempotent_witness :
    onlyN (sortStrings ["k3", "k1", "k4", "k2"]) 2 = some ["k3", "k4"]
    ∧ onlyN (sortStrings ["k3", "k4"]) 2 = some ["k3", "k4"] :=
  ⟨by decide,
    (sort_select_idempotent ["k3", "k1", "k4", "k2"] 2 (by decide) (by decide)
      (by decide)).2.1 ["k3", "k4"] (by decide)⟩

end S3Report
